import Mathlib

/-!
Verification of the scaffolding core of the react-mcp server (src/server.ts).

The embedding models, faithfully to the source:
  - the Node `path.posix` operations used by the core (`resolve`, `relative`,
    `join`, `dirname`, `isAbsolute`), at the character level;
  - a filesystem state (existing directories and files with contents) and the
    two primitives the core calls: `fs.mkdir(p, { recursive: true })` and
    `fs.writeFile(p, content, { flag: 'wx' })`, with errno-style errors
    (`EEXIST` when an entry already exists at the target path, `ENOTDIR` when a
    file occupies an intermediate path component, `ENOENT` for a missing
    parent), matching POSIX `mkdir(2)` / `open(2)` with `O_CREAT|O_EXCL`;
  - JavaScript `Error` values as a record of an optional errno `code` (present
    exactly on errno exceptions, absent on `new Error(msg)`) and a `message`
    string, matching the source's `isErrnoException` type guard;
  - the four core functions `resolveSafeTarget`, `ensureDirectory`,
    `ensureFile` and `scaffoldProject`.  Thrown errors become `Except.error` /
    `Option.some` results; the filesystem state is threaded explicitly and is
    also returned on failure, since an aborted scaffold keeps whatever it
    already materialized on disk.

The static pattern catalog (`PATTERNS`, src/server.ts lines 65-736) is pure
data, not logic; the spec explicitly scopes it out of the core ("Excluded as
external collaborators: ... the catalog of pattern definitions themselves").
Accordingly `scaffoldProject` here takes the catalog as an explicit parameter
of the source's type `PatternType -> PatternDefinition`, and the claims are
proved for every catalog; small concrete catalogs serve as witnesses.
-/

namespace Scaffold

/-- Splits a character list on `'/'`, keeping empty pieces, like
`String.prototype.split('/')` / the segment scanning of Node's path
normalizer.  `acc` holds the (reversed) characters of the current piece. -/
def splitSlash : List Char → List Char → List (List Char)
  | [], acc => [acc.reverse]
  | c :: cs, acc => if c = '/' then acc.reverse :: splitSlash cs [] else splitSlash cs (c :: acc)

/-- Node's `normalizeString` on the segments of an absolute path
(`allowAboveRoot = false`): empty and `"."` segments are dropped, `".."` pops
the last kept segment (or is dropped at the root), every other segment is
kept.  `acc` holds the kept segments in reverse. -/
def normAcc : List (List Char) → List (List Char) → List (List Char)
  | acc, [] => acc.reverse
  | acc, s :: rest =>
    if s = [] ∨ s = ['.'] then normAcc acc rest
    else if s = ['.', '.'] then normAcc acc.tail rest
    else normAcc (s :: acc) rest

/-- Joins segments with `'/'` (no leading separator). -/
def segsJoin : List (List Char) → List Char
  | [] => []
  | [s] => s
  | s :: rest => s ++ '/' :: segsJoin rest

/-- Renders a normalized segment list as an absolute path string. -/
def pathStrOfSegs (segs : List (List Char)) : String :=
  String.mk ('/' :: segsJoin segs)

/-- The normalized segment list of a path interpreted as absolute. -/
def absSegsOf (p : String) : List (List Char) :=
  normAcc [] (splitSlash p.data [])

/-- Canonical (normalized absolute) form of a path string. -/
def canonAbs (p : String) : String :=
  pathStrOfSegs (absSegsOf p)

/-- All prefixes of a list, shortest first (ending with the list itself). -/
def prefixesAsc {α : Type} : List α → List (List α)
  | [] => [[]]
  | x :: xs => [] :: (prefixesAsc xs).map (fun l => x :: l)

/-- The chain of canonical ancestor paths of `p`, from `"/"` down to
`canonAbs p` itself: the directories `fs.mkdir(p, { recursive: true })`
ensures, in creation order. -/
def chainOf (p : String) : List String :=
  (prefixesAsc (absSegsOf p)).map pathStrOfSegs

/-- Models `String.prototype.startsWith`: the characters of the second
argument are a prefix of the characters of the first. -/
def strStartsWith (s pat : String) : Bool :=
  List.isPrefixOf pat.data s.data

/-- Models `path.posix.isAbsolute`. -/
def isAbsolute (p : String) : Bool :=
  strStartsWith p "/"

/-- Models `path.resolve(baseDir, inputPath)` for an absolute `baseDir` (the
only way the source calls it): an absolute `inputPath` wins, otherwise it is
appended to `baseDir`; the result is normalized. -/
def resolvePath (baseDir inputPath : String) : String :=
  pathStrOfSegs (normAcc []
    (splitSlash (if isAbsolute inputPath then inputPath.data else baseDir.data ++ '/' :: inputPath.data) []))

/-- The `".."` marker segment produced by `path.relative`. -/
def dotdot : List Char := ['.', '.']

/-- Core of `path.posix.relative` on normalized segment lists: strip the
common prefix, then one `".."` per remaining `from` segment followed by the
remaining `to` segments. -/
def relSegs : List (List Char) → List (List Char) → List (List Char)
  | [], t => t
  | f, [] => f.map (fun _ => dotdot)
  | f₁ :: f, t₁ :: t =>
    if f₁ = t₁ then relSegs f t
    else (f₁ :: f).map (fun _ => dotdot) ++ t₁ :: t

/-- Models `path.relative(fromP, toP)` for absolute arguments (the only way
the source calls it): both sides are normalized first. -/
def relativePath (fromP toP : String) : String :=
  String.mk (segsJoin (relSegs (absSegsOf fromP) (absSegsOf toP)))

/-- Models `path.join(a, b)` for an absolute `a` (the only way the source
calls it): concatenation with a separator, then normalization. -/
def joinPath (a b : String) : String :=
  pathStrOfSegs (normAcc [] (splitSlash (a.data ++ '/' :: b.data) []))

/-- Models `path.posix.dirname`: everything before the last slash that
precedes the final non-slash run, with Node's root special cases. -/
def dirname (p : String) : String :=
  if p = "" then "." else
  let root := strStartsWith p "/"
  let r2 := (p.data.reverse.dropWhile (fun c => c = '/')).dropWhile (fun c => c ≠ '/')
  let pre := String.mk ((r2.drop 1).reverse)
  if pre = "" then (if root then "/" else ".")
  else if root && pre = "/" then "//"
  else pre

/-- Supported React architecture pattern types (src/server.ts line 10). -/
inductive PatternType
  | layered
  | feature
  | atomic
  | clean
  deriving DecidableEq

/-- One file entry of a pattern: relative path and exact content. -/
structure FileSpec where
  path : String
  content : String
  deriving DecidableEq

/-- Definition of a scaffolding pattern (src/server.ts lines 15-19). -/
structure PatternDefinition where
  label : String
  directories : List String
  files : List FileSpec
  deriving DecidableEq

/-- Result of a scaffolding operation (src/server.ts lines 24-30). -/
structure ScaffoldResult where
  resolvedTarget : String
  createdDirs : List String
  createdFiles : List String
  skippedFiles : List String
  label : String
  deriving DecidableEq

/-- A JavaScript `Error` as the source observes it: `code` is `some c`
exactly for Node errno exceptions (`isErrnoException`), and `none` for plain
`new Error(message)` values; `message` is the human-readable string. -/
structure JsError where
  code : Option String
  message : String
  deriving DecidableEq

/-- The source's `isErrnoException` type guard (src/server.ts lines 741-742):
an error that carries an errno `code`. -/
def isErrnoException (e : JsError) : Bool :=
  e.code.isSome

/-- Standard Node errno message fragments. -/
def errnoDescr : String → String
  | "EEXIST" => "file already exists"
  | "ENOTDIR" => "not a directory"
  | "ENOENT" => "no such file or directory"
  | c => c

/-- Builds a Node errno exception for a failed syscall. -/
def mkErrno (code syscall p : String) : JsError :=
  { code := some code
    message := code ++ ": " ++ errnoDescr code ++ ", " ++ syscall ++ " '" ++ p ++ "'" }

/-- Filesystem state: the set of existing directories (canonical absolute
paths; the root `"/"` always exists implicitly) and the existing files as an
association list from canonical absolute path to byte content. -/
structure FSState where
  dirs : List String
  files : List (String × String)
  deriving DecidableEq

/-- The state of a filesystem with no entries beyond the root. -/
def emptyFS : FSState :=
  { dirs := [], files := [] }

/-- The content of the file stored under exactly the key `q`. -/
def lookupFileStr (st : FSState) (q : String) : Option String :=
  (st.files.find? (fun e => e.1 == q)).map (fun e => e.2)

/-- Whether a file exists under exactly the key `q`. -/
def isFileStr (st : FSState) (q : String) : Bool :=
  (lookupFileStr st q).isSome

/-- Whether a directory exists under exactly the key `q` (the root always
exists). -/
def isDirStr (st : FSState) (q : String) : Bool :=
  q == "/" || st.dirs.contains q

/-- Whether a file exists at path `p` (the filesystem resolves `p` to its
canonical form). -/
def isFileAt (st : FSState) (p : String) : Bool :=
  isFileStr st (canonAbs p)

/-- Whether a directory exists at path `p`. -/
def isDirAt (st : FSState) (p : String) : Bool :=
  isDirStr st (canonAbs p)

/-- The content of the file at path `p`, if one exists. -/
def lookupFileAt (st : FSState) (p : String) : Option String :=
  lookupFileStr st (canonAbs p)

/-- Records a directory as existing (a no-op if it already does). -/
def addDir (st : FSState) (q : String) : FSState :=
  if isDirStr st q then st else { st with dirs := q :: st.dirs }

/-- The creation walk of `fs.mkdir(_, { recursive: true })` over the ancestor
chain: each missing directory is created in order; a file encountered on the
chain aborts with `ENOTDIR` (intermediate component) or `EEXIST` (the target
itself), keeping the directories already created. -/
def mkdirGo : FSState → List String → FSState × Option JsError
  | st, [] => (st, none)
  | st, q :: rest =>
    if isFileStr st q then
      (st, some (mkErrno (if rest.isEmpty then "EEXIST" else "ENOTDIR") "mkdir" q))
    else mkdirGo (addDir st q) rest

/-- Models `fs.mkdir(p, { recursive: true })`. -/
def mkdirRecursive (st : FSState) (p : String) : FSState × Option JsError :=
  mkdirGo st (chainOf p)

/-- Models `fs.writeFile(p, content, { flag: 'wx' })`: an exclusive create
that fails with `EEXIST` if any entry (file or directory) already exists at
`p`, with `ENOTDIR` if a file occupies the parent path, and with `ENOENT` if
the parent directory is missing. -/
def writeFileWx (st : FSState) (p content : String) : FSState × Option JsError :=
  if isFileAt st p || isDirAt st p then (st, some (mkErrno "EEXIST" "open" p))
  else if isFileAt st (dirname p) then (st, some (mkErrno "ENOTDIR" "open" p))
  else if !(isDirAt st (dirname p)) then (st, some (mkErrno "ENOENT" "open" p))
  else ({ st with files := (canonAbs p, content) :: st.files }, none)

/-- The message of the source's security violation error (src/server.ts
lines 756-758). -/
def securityViolationMessage (inputPath : String) : String :=
  "Security violation: Target path '" ++ inputPath ++ "' must be within the current working directory."

/-- The source's `resolveSafeTarget` (src/server.ts lines 751-762): resolve
the input against the base directory, reject when the relative path from the
base to the result starts with `".."` or is absolute. -/
def resolveSafeTarget (inputPath baseDir : String) : Except JsError String :=
  if strStartsWith (relativePath baseDir (resolvePath baseDir inputPath)) ".." ||
      isAbsolute (relativePath baseDir (resolvePath baseDir inputPath)) then
    Except.error { code := none, message := securityViolationMessage inputPath }
  else
    Except.ok (resolvePath baseDir inputPath)

/-- The message of a wrapped directory-creation error (src/server.ts
lines 773-775). -/
def dirErrorMessage (dirPath cause : String) : String :=
  "Failed to create directory '" ++ dirPath ++ "': " ++ cause

/-- The message of a wrapped file-creation error (src/server.ts
lines 795-797). -/
def fileErrorMessage (filePath cause : String) : String :=
  "Failed to create file '" ++ filePath ++ "': " ++ cause

/-- The source's `ensureDirectory` (src/server.ts lines 769-777): recursive
mkdir, any failure rethrown as a plain `Error` with a wrapped message. -/
def ensureDirectory (st : FSState) (dirPath : String) : FSState × Option JsError :=
  match mkdirRecursive st dirPath with
  | (st2, none) => (st2, none)
  | (st2, some e) => (st2, some { code := none, message := dirErrorMessage dirPath e.message })

/-- The source's `ensureFile` (src/server.ts lines 786-799): ensure the
parent directory chain, then exclusively create the file; an `EEXIST` from
either step returns `false`, any other failure is rethrown as a plain `Error`
with a wrapped message; returns `true` when the file was newly written. -/
def ensureFile (st : FSState) (filePath content : String) : FSState × Except JsError Bool :=
  match mkdirRecursive st (dirname filePath) with
  | (st1, some e) =>
    if isErrnoException e && e.code == some "EEXIST" then (st1, Except.ok false)
    else (st1, Except.error { code := none, message := fileErrorMessage filePath e.message })
  | (st1, none) =>
    match writeFileWx st1 filePath content with
    | (st2, none) => (st2, Except.ok true)
    | (st2, some e) =>
      if isErrnoException e && e.code == some "EEXIST" then (st2, Except.ok false)
      else (st2, Except.error { code := none, message := fileErrorMessage filePath e.message })

/-- The directory loop of `scaffoldProject` (src/server.ts lines 823-826):
each directory is ensured under the resolved root and recorded; the first
failure aborts. -/
def scaffoldDirs : String → FSState → List String → FSState × List String × Option JsError
  | _, st, [] => (st, [], none)
  | root, st, d :: rest =>
    match ensureDirectory st (joinPath root d) with
    | (st1, some e) => (st1, [], some e)
    | (st1, none) =>
      match scaffoldDirs root st1 rest with
      | (st2, created, err) => (st2, d :: created, err)

/-- The file loop of `scaffoldProject` (src/server.ts lines 828-835): each
file is materialized under the resolved root and recorded as created or
skipped; the first failure aborts. -/
def scaffoldFiles : String → FSState → List FileSpec → FSState × List String × List String × Except JsError Unit
  | _, st, [] => (st, [], [], Except.ok ())
  | root, st, f :: rest =>
    match ensureFile st (joinPath root f.path) f.content with
    | (st1, Except.error e) => (st1, [], [], Except.error e)
    | (st1, Except.ok created) =>
      match scaffoldFiles root st1 rest with
      | (st2, cf, sf, r) =>
        if created then (st2, f.path :: cf, sf, r) else (st2, cf, f.path :: sf, r)

/-- The source's `scaffoldProject` (src/server.ts lines 809-838), with the
static pattern catalog `PATTERNS` passed explicitly (see the module
docstring) and the filesystem state threaded through. -/
def scaffoldProject (PATTERNS : PatternType → PatternDefinition) (inputPath : String)
    (patternType : PatternType) (baseDir : String) (st : FSState) :
    FSState × Except JsError ScaffoldResult :=
  match resolveSafeTarget inputPath baseDir with
  | Except.error e => (st, Except.error e)
  | Except.ok resolvedTarget =>
    match ensureDirectory st resolvedTarget with
    | (st1, some e) => (st1, Except.error e)
    | (st1, none) =>
      match scaffoldDirs resolvedTarget st1 (PATTERNS patternType).directories with
      | (st2, _, some e) => (st2, Except.error e)
      | (st2, createdDirs, none) =>
        match scaffoldFiles resolvedTarget st2 (PATTERNS patternType).files with
        | (st3, _, _, Except.error e) => (st3, Except.error e)
        | (st3, createdFiles, skippedFiles, Except.ok _) =>
          (st3, Except.ok
            { resolvedTarget := resolvedTarget
              createdDirs := createdDirs
              createdFiles := createdFiles
              skippedFiles := skippedFiles
              label := (PATTERNS patternType).label })

/-- The transport-layer input schema's minimum length for `path`
(`z.string().min(1)`, src/server.ts lines 33-36). -/
def scaffoldInputPathMinLen : Nat := 1

/-- Whether the transport-layer `ScaffoldInputSchema` accepts a `path`
string. -/
def scaffoldInputPathValid (s : String) : Bool :=
  decide (scaffoldInputPathMinLen ≤ s.length)

/-- The resolved path stays inside the base: the base's normalized segments
are a prefix of the resolved path's normalized segments. -/
def insideBase (baseDir resolved : String) : Bool :=
  List.isPrefixOf (absSegsOf baseDir) (absSegsOf resolved)

/-- One state extends another: directories and stored files persist. -/
def Grows (st st2 : FSState) : Prop :=
  (∀ q, isDirStr st q = true → isDirStr st2 q = true) ∧
  (∀ q c, lookupFileStr st q = some c → lookupFileStr st2 q = some c)

/-- No path is simultaneously a directory and a file (true of any state
reachable from a file-free state). -/
def DirsFilesSep (st : FSState) : Prop :=
  ∀ q, isDirStr st q = true → isFileStr st q = false

/-- The canonical parent directory path of `p`. -/
def parentDirPath (p : String) : String :=
  canonAbs (dirname p)

/-- The proper ancestors of `p`'s parent directory, from the root down
(everything `ensureFile`'s recursive mkdir walks before the parent itself). -/
def parentChainFront (p : String) : List String :=
  (chainOf (dirname p)).dropLast

/-- After a non-fatal `ensureFile` at `p`, the state is settled for `p`: the
parent chain is materialized up to a blocking file at the parent itself, or
fully materialized with some entry at `p`.  A settled path makes `ensureFile`
a read-only no-op returning `false`. -/
def Settled (st : FSState) (p : String) : Prop :=
  (∀ q ∈ parentChainFront p, isDirStr st q = true) ∧
  (isFileStr st (parentDirPath p) = true ∨
    (isDirStr st (parentDirPath p) = true ∧ (isFileAt st p = true ∨ isDirAt st p = true)))

/-- The whole ancestor chain of `d` is materialized, making `ensureDirectory`
a read-only no-op. -/
def DirReady (st : FSState) (d : String) : Prop :=
  ∀ q ∈ chainOf d, isDirStr st q = true

/-- A small two-entry catalog used as a concrete test fixture (the spec's
end-to-end scenario shape). -/
def testPattern : PatternDefinition :=
  { label := "Test"
    directories := ["src/components"]
    files := [{ path := "src/app.ts", content := "export \x7b\x7d;\n" }] }

/-- A constant catalog mapping every pattern type to `testPattern`. -/
def testPatterns : PatternType → PatternDefinition :=
  fun _ => testPattern

/-- A catalog whose single file lives two directories deep, used to exercise
`ENOTDIR` failures. -/
def deepPattern : PatternDefinition :=
  { label := "Deep", directories := [], files := [{ path := "a/b/c", content := "x" }] }

/-- A constant catalog mapping every pattern type to `deepPattern`. -/
def deepPatterns : PatternType → PatternDefinition :=
  fun _ => deepPattern

/-- A state with a file occupying the scaffold target path itself. -/
def dirBlockedFS : FSState :=
  { dirs := [], files := [("/base/app", "occupied")] }

/-- A state with a file occupying an ancestor of a scaffolded file's parent
directory. -/
def fileBlockedFS : FSState :=
  { dirs := [], files := [("/base/app/a", "occupied")] }

/-- The state produced by a first scaffold of `testPattern` into the empty
root with base `"/base"` and input `"app"`. -/
def firstRunFS : FSState :=
  { dirs := ["/base/app/src/components", "/base/app/src", "/base/app", "/base"]
    files := [("/base/app/src/app.ts", "export \x7b\x7d;\n")] }

/-- The result record of that first scaffold run. -/
def firstRunResult : ScaffoldResult :=
  { resolvedTarget := "/base/app", createdDirs := ["src/components"]
    createdFiles := ["src/app.ts"], skippedFiles := [], label := "Test" }

/-- A root pre-seeded with custom user content at the test pattern's file
path. -/
def preSeededFS : FSState :=
  { dirs := [], files := [("/base/app/src/app.ts", "custom")] }

/-- The state produced by scaffolding `testPattern` over the pre-seeded
root: directories materialize, the seeded file keeps its bytes. -/
def preSeedRunFS : FSState :=
  { dirs := ["/base/app/src/components", "/base/app/src", "/base/app", "/base"]
    files := [("/base/app/src/app.ts", "custom")] }

/-- The result record of the pre-seeded scaffold run. -/
def preSeedRunResult : ScaffoldResult :=
  { resolvedTarget := "/base/app", createdDirs := ["src/components"]
    createdFiles := [], skippedFiles := ["src/app.ts"], label := "Test" }

/-- A real path segment: nonempty, not a dot marker, and free of
separators — the shape of every segment a normalization produces. -/
def cleanSeg (s : List Char) : Prop :=
  s ≠ [] ∧ s ≠ ['.'] ∧ s ≠ dotdot ∧ '/' ∉ s

/-- The errno `code` of a failed scaffold run (`some none` means it failed
with a plain code-less `Error`), or `none` if the run succeeded. -/
def errCodeOf (r : FSState × Except JsError ScaffoldResult) : Option (Option String) :=
  match r.2 with
  | Except.error e => some e.code
  | Except.ok _ => none

/-- The error message of a failed scaffold run, if it failed. -/
def errMsgOf (r : FSState × Except JsError ScaffoldResult) : Option String :=
  match r.2 with
  | Except.error e => some e.message
  | Except.ok _ => none

/-! ### Segment-level utility lemmas -/

theorem splitSlash_no_slash (cs : List Char) : ∀ (acc : List Char), (∀ c ∈ acc, c ≠ '/') →
    ∀ l ∈ splitSlash cs acc, ∀ c ∈ l, c ≠ '/' := by
  induction cs with
  | nil =>
    intro acc hacc l hl c hc
    simp only [splitSlash, List.mem_singleton] at hl
    subst hl
    exact hacc c (List.mem_reverse.mp hc)
  | cons c₀ cs ih =>
    intro acc hacc l hl c hc
    simp only [splitSlash] at hl
    by_cases h : c₀ = '/'
    · rw [if_pos h] at hl
      rcases List.mem_cons.mp hl with h1 | h1
      · subst h1
        exact hacc c (List.mem_reverse.mp hc)
      · exact ih [] (by simp) l h1 c hc
    · rw [if_neg h] at hl
      refine ih (c₀ :: acc) ?_ l hl c hc
      intro x hx
      rcases List.mem_cons.mp hx with rfl | hx
      · exact h
      · exact hacc x hx

theorem normAcc_clean (l : List (List Char)) : ∀ (acc : List (List Char)),
    (∀ s ∈ acc, cleanSeg s) → (∀ s ∈ l, '/' ∉ s) →
    ∀ s ∈ normAcc acc l, cleanSeg s := by
  induction l with
  | nil =>
    intro acc hacc _ s hs
    simp only [normAcc] at hs
    exact hacc s (List.mem_reverse.mp hs)
  | cons s₀ l ih =>
    intro acc hacc hl s hs
    simp only [normAcc] at hs
    by_cases h1 : s₀ = [] ∨ s₀ = ['.']
    · rw [if_pos h1] at hs
      exact ih acc hacc (fun x hx => hl x (List.mem_cons_of_mem _ hx)) s hs
    · rw [if_neg h1] at hs
      by_cases h2 : s₀ = ['.', '.']
      · rw [if_pos h2] at hs
        refine ih acc.tail ?_ (fun x hx => hl x (List.mem_cons_of_mem _ hx)) s hs
        intro x hx
        exact hacc x (List.mem_of_mem_tail hx)
      · rw [if_neg h2] at hs
        refine ih (s₀ :: acc) ?_ (fun x hx => hl x (List.mem_cons_of_mem _ hx)) s hs
        intro x hx
        rcases List.mem_cons.mp hx with rfl | hx
        · refine ⟨fun hh => h1 (Or.inl hh), fun hh => h1 (Or.inr hh), ?_, hl x (List.mem_cons_self _ _)⟩
          simpa [dotdot] using h2
        · exact hacc x hx

theorem normBody_clean (cs : List Char) : ∀ s ∈ normAcc [] (splitSlash cs []), cleanSeg s := by
  intro s hs
  refine normAcc_clean _ [] (by simp) ?_ s hs
  intro x hx h
  exact splitSlash_no_slash cs [] (by simp) x hx '/' h rfl

theorem absSegsOf_clean (p : String) : ∀ s ∈ absSegsOf p, cleanSeg s :=
  normBody_clean p.data

theorem normAcc_clean_id (l : List (List Char)) : ∀ (acc : List (List Char)),
    (∀ s ∈ l, cleanSeg s) → normAcc acc l = acc.reverse ++ l := by
  induction l with
  | nil =>
    intro acc _
    simp [normAcc]
  | cons s₀ l ih =>
    intro acc hl
    obtain ⟨h1, h2, h3, _⟩ := hl s₀ (List.mem_cons_self _ _)
    have hor : ¬ (s₀ = [] ∨ s₀ = ['.']) := by
      rintro (h | h)
      exacts [h1 h, h2 h]
    have h3' : ¬ s₀ = ['.', '.'] := by simpa [dotdot] using h3
    simp only [normAcc, if_neg hor, if_neg h3']
    rw [ih (s₀ :: acc) (fun x hx => hl x (List.mem_cons_of_mem _ hx))]
    simp

theorem normAcc_skip_empty (acc l : List (List Char)) :
    normAcc acc ([] :: l) = normAcc acc l := by
  simp [normAcc]

theorem splitSlash_no_slash_eq (s : List Char) : ∀ (acc : List Char), '/' ∉ s →
    splitSlash s acc = [acc.reverse ++ s] := by
  induction s with
  | nil =>
    intro acc _
    simp [splitSlash]
  | cons c cs ih =>
    intro acc hns
    have hc : c ≠ '/' := fun h => hns (by simp [h])
    simp only [splitSlash, if_neg hc]
    rw [ih (c :: acc) (fun h => hns (List.mem_cons_of_mem _ h))]
    simp

theorem splitSlash_append (s rest : List Char) : ∀ (acc : List Char), '/' ∉ s →
    splitSlash (s ++ '/' :: rest) acc = (acc.reverse ++ s) :: splitSlash rest [] := by
  induction s with
  | nil =>
    intro acc _
    simp [splitSlash]
  | cons c cs ih =>
    intro acc hns
    have hc : c ≠ '/' := fun h => hns (by simp [h])
    have hstep : splitSlash ((c :: cs) ++ '/' :: rest) acc =
        splitSlash (cs ++ '/' :: rest) (c :: acc) := by
      simp [splitSlash, hc]
    rw [hstep, ih (c :: acc) (fun h => hns (List.mem_cons_of_mem _ h))]
    simp

theorem splitSlash_segsJoin : ∀ (segs : List (List Char)), segs ≠ [] →
    (∀ s ∈ segs, '/' ∉ s) → splitSlash (segsJoin segs) [] = segs := by
  intro segs
  induction segs with
  | nil =>
    intro hne _
    exact absurd rfl hne
  | cons s rest ih =>
    intro _ hcl
    cases rest with
    | nil =>
      simpa [segsJoin] using splitSlash_no_slash_eq s [] (hcl s (by simp))
    | cons s₂ r2 =>
      have hj : segsJoin (s :: s₂ :: r2) = s ++ '/' :: segsJoin (s₂ :: r2) := rfl
      rw [hj, splitSlash_append _ _ [] (hcl s (by simp)),
        ih (by simp) (fun x hx => hcl x (List.mem_cons_of_mem _ hx))]
      simp

theorem absSegsOf_pathStr (segs : List (List Char)) (hcl : ∀ s ∈ segs, cleanSeg s) :
    absSegsOf (pathStrOfSegs segs) = segs := by
  have hdata : (pathStrOfSegs segs).data = '/' :: segsJoin segs := rfl
  unfold absSegsOf
  rw [hdata]
  cases segs with
  | nil =>
    simp [segsJoin, splitSlash, normAcc]
  | cons s rest =>
    have h1 : splitSlash ('/' :: segsJoin (s :: rest)) [] =
        [] :: splitSlash (segsJoin (s :: rest)) [] := by
      simp [splitSlash]
    rw [h1, splitSlash_segsJoin (s :: rest) (by simp) (fun x hx => (hcl x hx).2.2.2),
      normAcc_skip_empty, normAcc_clean_id (s :: rest) [] hcl]
    simp

theorem absSegsOf_canonAbs (p : String) : absSegsOf (canonAbs p) = absSegsOf p :=
  absSegsOf_pathStr _ (absSegsOf_clean p)

theorem canonAbs_canonAbs (p : String) : canonAbs (canonAbs p) = canonAbs p := by
  unfold canonAbs
  rw [show absSegsOf (pathStrOfSegs (absSegsOf p)) = absSegsOf p from absSegsOf_canonAbs p]

theorem absSegsOf_resolvePath (b i : String) :
    absSegsOf (resolvePath b i) =
      normAcc [] (splitSlash (if isAbsolute i then i.data else b.data ++ '/' :: i.data) []) :=
  absSegsOf_pathStr _ (normBody_clean _)

theorem relSegs_refl : ∀ (l : List (List Char)), relSegs l l = [] := by
  intro l
  induction l with
  | nil => rfl
  | cons s rest ih => simp [relSegs, ih]

theorem relSegs_append (f r : List (List Char)) : relSegs f (f ++ r) = r := by
  induction f with
  | nil => simp [relSegs]
  | cons s rest ih => simpa [relSegs] using ih

theorem relSegs_escape (f : List (List Char)) : ∀ (t : List (List Char)),
    List.isPrefixOf f t = false → ∃ rest, relSegs f t = dotdot :: rest := by
  induction f with
  | nil =>
    intro t h
    simp [List.isPrefixOf] at h
  | cons f₁ f ih =>
    intro t h
    cases t with
    | nil =>
      exact ⟨f.map (fun _ => dotdot), by simp [relSegs]⟩
    | cons t₁ t =>
      by_cases he : f₁ = t₁
      · subst he
        have h' : List.isPrefixOf f t = false := by
          simpa [List.isPrefixOf] using h
        obtain ⟨r, hr⟩ := ih t h'
        exact ⟨r, by simp [relSegs, hr]⟩
      · exact ⟨f.map (fun _ => dotdot) ++ t₁ :: t, by simp [relSegs, he]⟩

theorem isPrefixOf_self_append (l r : List Char) : List.isPrefixOf l (l ++ r) = true := by
  induction l with
  | nil => simp [List.isPrefixOf]
  | cons c cs ih => simp [List.isPrefixOf, ih]

theorem strStartsWith_dotdot (rest : List (List Char)) :
    strStartsWith (String.mk (segsJoin (dotdot :: rest))) ".." = true := by
  cases rest with
  | nil =>
    have h := isPrefixOf_self_append dotdot []
    rw [List.append_nil] at h
    exact h
  | cons s r =>
    show List.isPrefixOf dotdot (dotdot ++ '/' :: segsJoin (s :: r)) = true
    exact isPrefixOf_self_append dotdot _

theorem isAbsolute_segsJoin (segs : List (List Char)) (hcl : ∀ s ∈ segs, cleanSeg s) :
    isAbsolute (String.mk (segsJoin segs)) = false := by
  cases segs with
  | nil => rfl
  | cons s rest =>
    obtain ⟨h1, _, _, h4⟩ := hcl s (by simp)
    cases s with
    | nil => exact absurd rfl h1
    | cons c cs =>
      have hc : ('/' == c) = false := beq_eq_false_iff_ne.mpr (fun h => h4 (by simp [h.symm]))
      cases rest with
      | nil =>
        show List.isPrefixOf ['/'] (c :: cs) = false
        simp [List.isPrefixOf, hc]
      | cons s₂ r =>
        show List.isPrefixOf ['/'] (c :: (cs ++ '/' :: segsJoin (s₂ :: r))) = false
        simp [List.isPrefixOf, hc]

/-! ### Path-guard characterization -/

theorem resolveSafeTarget_ok_iff (i b : String) :
    resolveSafeTarget i b = Except.ok (resolvePath b i) ↔
      (strStartsWith (relativePath b (resolvePath b i)) ".." ||
        isAbsolute (relativePath b (resolvePath b i))) = false := by
  unfold resolveSafeTarget
  split
  · rename_i h
    rw [h]
    simp
  · rename_i h
    simp only [Bool.not_eq_true] at h
    rw [h]
    simp

theorem resolveSafeTarget_err_iff (i b : String) :
    resolveSafeTarget i b =
        Except.error { code := none, message := securityViolationMessage i } ↔
      (strStartsWith (relativePath b (resolvePath b i)) ".." ||
        isAbsolute (relativePath b (resolvePath b i))) = true := by
  unfold resolveSafeTarget
  split
  · rename_i h
    rw [h]
    simp
  · rename_i h
    simp only [Bool.not_eq_true] at h
    rw [h]
    simp

theorem resolveSafeTarget_fails_iff (i b : String) :
    (∃ e, resolveSafeTarget i b = Except.error e) ↔
      (strStartsWith (relativePath b (resolvePath b i)) ".." ||
        isAbsolute (relativePath b (resolvePath b i))) = true := by
  unfold resolveSafeTarget
  split
  · rename_i h
    rw [h]
    simp
  · rename_i h
    simp only [Bool.not_eq_true] at h
    rw [h]
    simp

theorem relativePath_inside (b r : String) (h : insideBase b r = true) :
    relativePath b r = String.mk (segsJoin ((absSegsOf r).drop (absSegsOf b).length)) := by
  unfold insideBase at h
  obtain ⟨rest, hrest⟩ := List.isPrefixOf_iff_prefix.mp h
  unfold relativePath
  rw [← hrest, relSegs_append, List.drop_left]

theorem escape_startsWith (b i : String)
    (h : insideBase b (resolvePath b i) = false) :
    strStartsWith (relativePath b (resolvePath b i)) ".." = true := by
  unfold insideBase at h
  obtain ⟨rest, hr⟩ := relSegs_escape (absSegsOf b) (absSegsOf (resolvePath b i)) h
  unfold relativePath
  rw [hr]
  exact strStartsWith_dotdot rest

theorem relativePath_self (b : String) : relativePath b b = "" := by
  unfold relativePath
  rw [relSegs_refl]
  rfl

theorem splitSlash_append_slash_nil (cs : List Char) : ∀ (acc : List Char),
    splitSlash (cs ++ ['/']) acc = splitSlash cs acc ++ [[]] := by
  induction cs with
  | nil =>
    intro acc
    simp [splitSlash]
  | cons c cs ih =>
    intro acc
    by_cases h : c = '/'
    · simp [splitSlash, h, ih]
    · simp [splitSlash, h, ih]

theorem normAcc_append_empty (l : List (List Char)) : ∀ (acc : List (List Char)),
    normAcc acc (l ++ [[]]) = normAcc acc l := by
  induction l with
  | nil =>
    intro acc
    simp [normAcc]
  | cons s l ih =>
    intro acc
    simp only [List.cons_append, normAcc]
    by_cases h1 : s = [] ∨ s = ['.']
    · rw [if_pos h1, if_pos h1]
      exact ih acc
    · rw [if_neg h1, if_neg h1]
      by_cases h2 : s = ['.', '.']
      · rw [if_pos h2, if_pos h2]
        exact ih _
      · rw [if_neg h2, if_neg h2]
        exact ih _

theorem resolvePath_empty (b : String) : resolvePath b "" = canonAbs b := by
  unfold resolvePath canonAbs absSegsOf
  rw [if_neg (by simp [isAbsolute, strStartsWith, List.isPrefixOf])]
  have hbody : b.data ++ '/' :: "".data = b.data ++ ['/'] := rfl
  rw [hbody, splitSlash_append_slash_nil, normAcc_append_empty]

/-! ### Filesystem-state basics -/

theorem addDir_files (st : FSState) (q : String) : (addDir st q).files = st.files := by
  unfold addDir
  split <;> rfl

theorem lookupFileStr_of_files_eq {st st2 : FSState} (h : st2.files = st.files) (q : String) :
    lookupFileStr st2 q = lookupFileStr st q := by
  unfold lookupFileStr
  rw [h]

theorem isFileStr_of_files_eq {st st2 : FSState} (h : st2.files = st.files) (q : String) :
    isFileStr st2 q = isFileStr st q := by
  unfold isFileStr
  rw [lookupFileStr_of_files_eq h]

theorem lookupFileStr_addDir (st : FSState) (q r : String) :
    lookupFileStr (addDir st q) r = lookupFileStr st r :=
  lookupFileStr_of_files_eq (addDir_files st q) r

theorem isFileStr_addDir (st : FSState) (q r : String) :
    isFileStr (addDir st q) r = isFileStr st r :=
  isFileStr_of_files_eq (addDir_files st q) r

theorem isDirStr_addDir_self (st : FSState) (q : String) :
    isDirStr (addDir st q) q = true := by
  unfold addDir
  split
  · rename_i h
    exact h
  · simp [isDirStr, List.contains_cons]

theorem isDirStr_addDir_mono (st : FSState) (q r : String) (h : isDirStr st r = true) :
    isDirStr (addDir st q) r = true := by
  unfold addDir
  split
  · exact h
  · unfold isDirStr at h ⊢
    simp only [Bool.or_eq_true] at h ⊢
    rcases h with h1 | h1
    · exact Or.inl h1
    · right
      have h2 : r ∈ st.dirs := by simpa using h1
      simp [List.contains_cons, h2]

theorem grows_refl (st : FSState) : Grows st st :=
  ⟨fun _ h => h, fun _ _ h => h⟩

theorem grows_trans {st1 st2 st3 : FSState} (h1 : Grows st1 st2) (h2 : Grows st2 st3) :
    Grows st1 st3 :=
  ⟨fun q h => h2.1 q (h1.1 q h), fun q c h => h2.2 q c (h1.2 q c h)⟩

theorem grows_addDir (st : FSState) (q : String) : Grows st (addDir st q) :=
  ⟨fun r h => isDirStr_addDir_mono st q r h, fun r c h => by rwa [lookupFileStr_addDir]⟩

theorem grows_isFileStr {st st2 : FSState} (h : Grows st st2) (q : String)
    (hf : isFileStr st q = true) : isFileStr st2 q = true := by
  unfold isFileStr at hf ⊢
  rcases Option.isSome_iff_exists.mp hf with ⟨c, hc⟩
  rw [h.2 q c hc]
  rfl

theorem sep_addDir (st : FSState) (q : String) (hq : isFileStr st q = false)
    (hsep : DirsFilesSep st) : DirsFilesSep (addDir st q) := by
  intro r hr
  rw [isFileStr_addDir]
  unfold addDir at hr
  split at hr
  · exact hsep r hr
  · unfold isDirStr at hr
    simp only [Bool.or_eq_true] at hr
    rcases hr with h1 | h1
    · exact hsep r (by unfold isDirStr; simp [h1])
    · rw [List.contains_cons, Bool.or_eq_true] at h1
      rcases h1 with h2 | h2
      · have hrq : r = q := by simpa using h2
        subst hrq
        exact hq
      · have h3 : r ∈ st.dirs := by simpa using h2
        exact hsep r (by unfold isDirStr; simp [h3])

/-! ### Recursive mkdir walk -/

theorem mkdirGo_files (qs : List String) : ∀ (st : FSState),
    (mkdirGo st qs).1.files = st.files := by
  induction qs with
  | nil =>
    intro st
    rfl
  | cons q rest ih =>
    intro st
    simp only [mkdirGo]
    split
    · rfl
    · rw [ih (addDir st q), addDir_files]

theorem mkdirGo_grows (qs : List String) : ∀ (st : FSState), Grows st (mkdirGo st qs).1 := by
  induction qs with
  | nil =>
    intro st
    exact grows_refl st
  | cons q rest ih =>
    intro st
    simp only [mkdirGo]
    split
    · exact grows_refl st
    · exact grows_trans (grows_addDir st q) (ih (addDir st q))

theorem mkdirGo_sep (qs : List String) : ∀ (st : FSState), DirsFilesSep st →
    DirsFilesSep (mkdirGo st qs).1 := by
  induction qs with
  | nil =>
    intro st h
    exact h
  | cons q rest ih =>
    intro st hsep
    simp only [mkdirGo]
    split
    · exact hsep
    · rename_i hq
      exact ih (addDir st q) (sep_addDir st q (by simpa using hq) hsep)

theorem mkdirGo_none_iff (qs : List String) : ∀ (st : FSState),
    (mkdirGo st qs).2 = none ↔ ∀ q ∈ qs, isFileStr st q = false := by
  induction qs with
  | nil =>
    intro st
    simp [mkdirGo]
  | cons q rest ih =>
    intro st
    simp only [mkdirGo]
    split
    · rename_i h
      constructor
      · intro hc
        cases hc
      · intro hall
        have hx := hall q (List.mem_cons_self _ _)
        rw [h] at hx
        cases hx
    · rename_i h
      have hq : isFileStr st q = false := by simpa using h
      rw [ih (addDir st q)]
      constructor
      · intro hall x hx
        rcases List.mem_cons.mp hx with rfl | hx
        · exact hq
        · rw [← isFileStr_addDir st q x]
          exact hall x hx
      · intro hall x hx
        rw [isFileStr_addDir st q x]
        exact hall x (List.mem_cons_of_mem _ hx)

theorem mkdirGo_ok_dirs (qs : List String) : ∀ (st st' : FSState),
    mkdirGo st qs = (st', none) → ∀ q ∈ qs, isDirStr st' q = true := by
  induction qs with
  | nil =>
    intro st st' _ q hq
    exact absurd hq (by simp)
  | cons q0 rest ih =>
    intro st st' h x hx
    simp only [mkdirGo] at h
    split at h
    · simp [Prod.ext_iff] at h
    · rcases List.mem_cons.mp hx with hx1 | hx2
      · subst hx1
        have hg := mkdirGo_grows rest (addDir st x)
        rw [h] at hg
        exact hg.1 x (isDirStr_addDir_self st x)
      · exact ih (addDir st q0) st' h x hx2

theorem addDir_of_isDir (st : FSState) (q : String) (h : isDirStr st q = true) :
    addDir st q = st := by
  unfold addDir
  rw [if_pos h]

theorem mkdirGo_id (qs : List String) : ∀ (st : FSState),
    (∀ q ∈ qs, isDirStr st q = true) → DirsFilesSep st → mkdirGo st qs = (st, none) := by
  induction qs with
  | nil =>
    intro st _ _
    rfl
  | cons q rest ih =>
    intro st hall hsep
    have hd : isDirStr st q = true := hall q (List.mem_cons_self _ _)
    have hf : isFileStr st q = false := hsep q hd
    simp only [mkdirGo]
    rw [if_neg (by simp [hf]), addDir_of_isDir st q hd]
    exact ih st (fun x hx => hall x (List.mem_cons_of_mem _ hx)) hsep

theorem mkdirGo_append_id (qs qs2 : List String) (st : FSState)
    (hall : ∀ q ∈ qs, isDirStr st q = true) (hsep : DirsFilesSep st) :
    mkdirGo st (qs ++ qs2) = mkdirGo st qs2 := by
  induction qs with
  | nil => rfl
  | cons q rest ih =>
    have hd := hall q (List.mem_cons_self _ _)
    have hf := hsep q hd
    simp only [List.cons_append, mkdirGo]
    rw [if_neg (by simp [hf]), addDir_of_isDir st q hd]
    exact ih (fun x hx => hall x (List.mem_cons_of_mem _ hx))

theorem mkdirGo_err (qs : List String) : ∀ (st st' : FSState) (e : JsError),
    mkdirGo st qs = (st', some e) →
    ∃ qs₁ q₀ qs₂, qs = qs₁ ++ q₀ :: qs₂ ∧ (∀ q ∈ qs₁, isFileStr st q = false) ∧
      isFileStr st q₀ = true ∧
      e = mkErrno (if qs₂.isEmpty then "EEXIST" else "ENOTDIR") "mkdir" q₀ ∧
      st'.files = st.files ∧ Grows st st' ∧ (∀ q ∈ qs₁, isDirStr st' q = true) := by
  induction qs with
  | nil =>
    intro st st' e h
    simp [mkdirGo, Prod.ext_iff] at h
  | cons q rest ih =>
    intro st st' e h
    simp only [mkdirGo] at h
    split at h
    · rename_i hq
      injection h with h1 h2
      injection h2 with h3
      refine ⟨[], q, rest, by simp, by simp, hq, h3.symm, by rw [← h1], ?_, by simp⟩
      rw [← h1]
      exact grows_refl st
    · rename_i hq
      obtain ⟨qs₁, q₀, qs₂, heq, hclean, hfile, herr, hfiles, hgrow, hdirs⟩ :=
        ih (addDir st q) st' e h
      have hqf : isFileStr st q = false := by simpa using hq
      refine ⟨q :: qs₁, q₀, qs₂, by simp [heq], ?_, ?_, herr, ?_, ?_, ?_⟩
      · intro x hx
        rcases List.mem_cons.mp hx with rfl | hx
        · exact hqf
        · rw [← isFileStr_addDir st q x]
          exact hclean x hx
      · rw [← isFileStr_addDir st q q₀]
        exact hfile
      · rw [hfiles, addDir_files]
      · exact grows_trans (grows_addDir st q) hgrow
      · intro x hx
        rcases List.mem_cons.mp hx with rfl | hx
        · exact hgrow.1 x (isDirStr_addDir_self st x)
        · exact hdirs x hx

/-! ### Ancestor-chain decomposition and exclusive create -/

theorem prefixesAsc_ne_nil {α : Type} (l : List α) : prefixesAsc l ≠ [] := by
  cases l <;> simp [prefixesAsc]

theorem map_prefixesAsc_decomp {β : Type} (l : List (List Char)) :
    ∀ (g : List (List Char) → β),
      (prefixesAsc l).map g = ((prefixesAsc l).map g).dropLast ++ [g l] := by
  induction l with
  | nil =>
    intro g
    rfl
  | cons x xs ih =>
    intro g
    have h1 : (prefixesAsc (x :: xs)).map g =
        g [] :: (prefixesAsc xs).map (fun t => g (x :: t)) := by
      simp [prefixesAsc, List.map_map, Function.comp]
    rw [h1]
    have hne : (prefixesAsc xs).map (fun t => g (x :: t)) ≠ [] := by
      intro hc
      exact prefixesAsc_ne_nil xs (List.map_eq_nil_iff.mp hc)
    rw [List.dropLast_cons_of_ne_nil hne, List.cons_append]
    exact congrArg (fun t => g [] :: t) (ih (fun t => g (x :: t)))

theorem chain_decomp (p : String) : chainOf p = (chainOf p).dropLast ++ [canonAbs p] :=
  map_prefixesAsc_decomp (absSegsOf p) pathStrOfSegs

theorem chain_dirname (p : String) :
    chainOf (dirname p) = parentChainFront p ++ [parentDirPath p] :=
  chain_decomp (dirname p)

theorem or_false_left {a b : Bool} (h : (a || b) = false) : a = false := by
  cases a
  · rfl
  · simp at h

theorem or_false_right {a b : Bool} (h : (a || b) = false) : b = false := by
  cases b
  · rfl
  · simp at h

theorem writeFileWx_ok_inv (st : FSState) (p c : String) (st2 : FSState)
    (h : writeFileWx st p c = (st2, none)) :
    (isFileAt st p || isDirAt st p) = false ∧ isFileAt st (dirname p) = false ∧
      isDirAt st (dirname p) = true ∧
      st2 = { st with files := (canonAbs p, c) :: st.files } := by
  unfold writeFileWx at h
  split at h
  · simp [Prod.ext_iff] at h
  · split at h
    · simp [Prod.ext_iff] at h
    · split at h
      · simp [Prod.ext_iff] at h
      · rename_i h1 h2 h3
        injection h with ha hb
        exact ⟨by simpa using h1, by simpa using h2, by simpa using h3, ha.symm⟩

theorem writeFileWx_err_inv (st : FSState) (p c : String) (st2 : FSState) (e : JsError)
    (h : writeFileWx st p c = (st2, some e)) :
    st2 = st ∧
      ((e = mkErrno "EEXIST" "open" p ∧ (isFileAt st p || isDirAt st p) = true) ∨
        (e = mkErrno "ENOTDIR" "open" p ∧ isFileAt st (dirname p) = true) ∨
        (e = mkErrno "ENOENT" "open" p ∧ isDirAt st (dirname p) = false)) := by
  unfold writeFileWx at h
  split at h
  · rename_i h1
    injection h with ha hb
    injection hb with hc
    exact ⟨ha.symm, Or.inl ⟨hc.symm, h1⟩⟩
  · rename_i h1
    split at h
    · rename_i h2
      injection h with ha hb
      injection hb with hc
      exact ⟨ha.symm, Or.inr (Or.inl ⟨hc.symm, h2⟩)⟩
    · rename_i h2
      split at h
      · rename_i h3
        injection h with ha hb
        injection hb with hc
        refine ⟨ha.symm, Or.inr (Or.inr ⟨hc.symm, ?_⟩)⟩
        simpa using h3
      · simp [Prod.ext_iff] at h

theorem grows_prepend_file (st : FSState) (k c : String) (hk : isFileStr st k = false) :
    Grows st { st with files := (k, c) :: st.files } := by
  constructor
  · intro q h
    exact h
  · intro q c0 h
    unfold lookupFileStr at h ⊢
    by_cases hq : k = q
    · exfalso
      subst hq
      unfold isFileStr lookupFileStr at hk
      rw [h] at hk
      simp at hk
    · rw [List.find?_cons_of_neg _ (by simp [hq])]
      exact h

theorem sep_prepend_file (st : FSState) (k c : String) (hk : isDirStr st k = false)
    (hsep : DirsFilesSep st) : DirsFilesSep { st with files := (k, c) :: st.files } := by
  intro q hq
  have hq' : isDirStr st q = true := hq
  unfold isFileStr lookupFileStr
  by_cases hkq : k = q
  · exfalso
    subst hkq
    rw [hq'] at hk
    cases hk
  · rw [List.find?_cons_of_neg _ (by simp [hkq])]
    exact hsep q hq'

theorem writeFileWx_grows (st : FSState) (p c : String) : Grows st (writeFileWx st p c).1 := by
  rcases hw : writeFileWx st p c with ⟨st2, eo⟩
  cases eo with
  | none =>
    obtain ⟨hg, _, _, hst⟩ := writeFileWx_ok_inv st p c st2 hw
    rw [hst]
    exact grows_prepend_file st (canonAbs p) c (or_false_left hg)
  | some e =>
    obtain ⟨hst, _⟩ := writeFileWx_err_inv st p c st2 e hw
    rw [hst]
    exact grows_refl st

theorem writeFileWx_sep (st : FSState) (p c : String) (hsep : DirsFilesSep st) :
    DirsFilesSep (writeFileWx st p c).1 := by
  rcases hw : writeFileWx st p c with ⟨st2, eo⟩
  cases eo with
  | none =>
    obtain ⟨hg, _, _, hst⟩ := writeFileWx_ok_inv st p c st2 hw
    rw [hst]
    exact sep_prepend_file st (canonAbs p) c (or_false_right hg) hsep
  | some e =>
    obtain ⟨hst, _⟩ := writeFileWx_err_inv st p c st2 e hw
    rw [hst]
    exact hsep

theorem mkdirRecursive_files (st : FSState) (p : String) :
    (mkdirRecursive st p).1.files = st.files :=
  mkdirGo_files _ st

theorem mkdirRecursive_grows (st : FSState) (p : String) : Grows st (mkdirRecursive st p).1 :=
  mkdirGo_grows _ st

theorem mkdirRecursive_sep (st : FSState) (p : String) (h : DirsFilesSep st) :
    DirsFilesSep (mkdirRecursive st p).1 :=
  mkdirGo_sep _ st h

theorem mkdirGo_dirs_bound (qs : List String) : ∀ (st : FSState) (r : String),
    isDirStr (mkdirGo st qs).1 r = true → isDirStr st r = true ∨ r ∈ qs := by
  induction qs with
  | nil =>
    intro st r h
    exact Or.inl h
  | cons q rest ih =>
    intro st r h
    simp only [mkdirGo] at h
    split at h
    · exact Or.inl h
    · rcases ih (addDir st q) r h with h1 | h1
      · unfold addDir at h1
        split at h1
        · exact Or.inl h1
        · unfold isDirStr at h1
          simp only [Bool.or_eq_true] at h1
          rcases h1 with h2 | h2
          · exact Or.inl (by unfold isDirStr; simp [h2])
          · rw [List.contains_cons, Bool.or_eq_true] at h2
            rcases h2 with h3 | h3
            · right
              rw [show r = q from by simpa using h3]
              exact List.mem_cons_self _ _
            · left
              have hm : r ∈ st.dirs := by simpa using h3
              unfold isDirStr
              simp [hm]
      · exact Or.inr (List.mem_cons_of_mem _ h1)

/-! ### Directory and file materializer lemmas -/

theorem ensureDirectory_grows (st : FSState) (d : String) :
    Grows st (ensureDirectory st d).1 := by
  unfold ensureDirectory
  rcases hmk : mkdirRecursive st d with ⟨st2, eo⟩
  have hg := mkdirRecursive_grows st d
  rw [hmk] at hg
  cases eo <;> exact hg

theorem ensureDirectory_sep (st : FSState) (d : String) (h : DirsFilesSep st) :
    DirsFilesSep (ensureDirectory st d).1 := by
  unfold ensureDirectory
  rcases hmk : mkdirRecursive st d with ⟨st2, eo⟩
  have hs := mkdirRecursive_sep st d h
  rw [hmk] at hs
  cases eo <;> exact hs

theorem ensureDirectory_files (st : FSState) (d : String) :
    (ensureDirectory st d).1.files = st.files := by
  unfold ensureDirectory
  rcases hmk : mkdirRecursive st d with ⟨st2, eo⟩
  have hf := mkdirRecursive_files st d
  rw [hmk] at hf
  cases eo <;> exact hf

theorem ensureDirectory_ok_ready (st st' : FSState) (d : String)
    (h : ensureDirectory st d = (st', none)) : DirReady st' d := by
  unfold ensureDirectory at h
  rcases hmk : mkdirRecursive st d with ⟨st2, eo⟩
  rw [hmk] at h
  cases eo with
  | some e => simp at h
  | none =>
    injection h with ha hb
    subst ha
    intro q hq
    exact mkdirGo_ok_dirs (chainOf d) st st2 hmk q hq

theorem ensureDirectory_of_ready (st : FSState) (d : String) (hready : DirReady st d)
    (hsep : DirsFilesSep st) : ensureDirectory st d = (st, none) := by
  unfold ensureDirectory
  have hmk : mkdirRecursive st d = (st, none) := mkdirGo_id (chainOf d) st hready hsep
  rw [hmk]

theorem dirReady_mono {st st2 : FSState} (d : String) (hg : Grows st st2)
    (h : DirReady st d) : DirReady st2 d :=
  fun q hq => hg.1 q (h q hq)

theorem settled_mono {st st2 : FSState} (p : String) (hg : Grows st st2)
    (h : Settled st p) : Settled st2 p := by
  obtain ⟨h1, h2⟩ := h
  refine ⟨fun q hq => hg.1 q (h1 q hq), ?_⟩
  rcases h2 with h2 | ⟨h2, h3⟩
  · exact Or.inl (grows_isFileStr hg _ h2)
  · refine Or.inr ⟨hg.1 _ h2, ?_⟩
    rcases h3 with h3 | h3
    · exact Or.inl (grows_isFileStr hg _ h3)
    · exact Or.inr (hg.1 _ h3)

theorem eexist_cond {e : JsError}
    (h : (isErrnoException e && e.code == some "EEXIST") = true) :
    e.code = some "EEXIST" := by
  rw [Bool.and_eq_true] at h
  simpa using h.2

theorem neq_enotdir_eexist : ("ENOTDIR" : String) ≠ "EEXIST" := by decide

theorem neq_enoent_eexist : ("ENOENT" : String) ≠ "EEXIST" := by decide

theorem ensureFile_grows (st : FSState) (p c : String) : Grows st (ensureFile st p c).1 := by
  unfold ensureFile
  rcases hmk : mkdirRecursive st (dirname p) with ⟨st1, eo⟩
  have hg1 : Grows st st1 := by
    have hg := mkdirRecursive_grows st (dirname p)
    rw [hmk] at hg
    exact hg
  cases eo with
  | some e =>
    dsimp only
    split <;> exact hg1
  | none =>
    dsimp only
    rcases hwx : writeFileWx st1 p c with ⟨st2, eo2⟩
    have hg2 : Grows st1 st2 := by
      have hgw := writeFileWx_grows st1 p c
      rw [hwx] at hgw
      exact hgw
    cases eo2 with
    | none => exact grows_trans hg1 hg2
    | some e =>
      dsimp only
      split <;> exact grows_trans hg1 hg2

theorem ensureFile_sep (st : FSState) (p c : String) (hsep : DirsFilesSep st) :
    DirsFilesSep (ensureFile st p c).1 := by
  unfold ensureFile
  rcases hmk : mkdirRecursive st (dirname p) with ⟨st1, eo⟩
  have hs1 : DirsFilesSep st1 := by
    have hs := mkdirRecursive_sep st (dirname p) hsep
    rw [hmk] at hs
    exact hs
  cases eo with
  | some e =>
    dsimp only
    split <;> exact hs1
  | none =>
    dsimp only
    rcases hwx : writeFileWx st1 p c with ⟨st2, eo2⟩
    have hs2 : DirsFilesSep st2 := by
      have hsw := writeFileWx_sep st1 p c hs1
      rw [hwx] at hsw
      exact hsw
    cases eo2 with
    | none => exact hs2
    | some e =>
      dsimp only
      split <;> exact hs2

theorem ensureFile_settled (st st' : FSState) (p c : String) (b : Bool)
    (h : ensureFile st p c = (st', Except.ok b)) : Settled st' p := by
  unfold ensureFile at h
  rcases hmk : mkdirRecursive st (dirname p) with ⟨st1, eo⟩
  rw [hmk] at h
  cases eo with
  | some e =>
    dsimp only at h
    split at h
    · rename_i hcond
      injection h with ha hb
      subst ha
      obtain ⟨qs₁, q₀, qs₂, heq, hclean, hfile, herr, hfiles, hgrow, hdirs⟩ :=
        mkdirGo_err (chainOf (dirname p)) st st1 e hmk
      have hcode : e.code = some "EEXIST" := eexist_cond hcond
      have hif : (if qs₂.isEmpty then "EEXIST" else "ENOTDIR") = "EEXIST" := by
        have hc1 : e.code = some (if qs₂.isEmpty then "EEXIST" else "ENOTDIR") := by
          rw [herr]
          rfl
        rw [hcode] at hc1
        injection hc1 with hx
        exact hx.symm
      have hq2 : qs₂ = [] := by
        cases hq2h : qs₂.isEmpty with
        | true => exact List.isEmpty_iff.mp hq2h
        | false =>
          rw [if_neg (by simp [hq2h])] at hif
          exact absurd hif neq_enotdir_eexist
      subst hq2
      have hde : qs₁ ++ [q₀] = parentChainFront p ++ [parentDirPath p] := by
        have hcd := chain_dirname p
        rw [heq] at hcd
        exact hcd
      have hinj := List.append_inj' hde rfl
      have hq₁ : qs₁ = parentChainFront p := hinj.1
      have hq₀ : q₀ = parentDirPath p := by simpa using hinj.2
      subst hq₁
      subst hq₀
      constructor
      · intro q hq
        exact hdirs q hq
      · exact Or.inl (grows_isFileStr hgrow _ hfile)
    · simp [Prod.ext_iff] at h
  | none =>
    dsimp only at h
    rcases hwx : writeFileWx st1 p c with ⟨st2, eo2⟩
    rw [hwx] at h
    have hdirs1 : ∀ q ∈ chainOf (dirname p), isDirStr st1 q = true :=
      mkdirGo_ok_dirs _ st st1 hmk
    have hfront1 : ∀ q ∈ parentChainFront p, isDirStr st1 q = true := by
      intro q hq
      refine hdirs1 q ?_
      rw [chain_dirname p]
      exact List.mem_append_left _ hq
    have hparent1 : isDirStr st1 (parentDirPath p) = true := by
      refine hdirs1 _ ?_
      rw [chain_dirname p]
      exact List.mem_append_right _ (by simp)
    cases eo2 with
    | none =>
      dsimp only at h
      injection h with ha hb
      subst ha
      obtain ⟨hg, hf2, hd2, hst⟩ := writeFileWx_ok_inv st1 p c st2 hwx
      refine ⟨?_, Or.inr ⟨?_, Or.inl ?_⟩⟩
      · intro q hq
        rw [hst]
        exact hfront1 q hq
      · rw [hst]
        exact hparent1
      · rw [hst]
        unfold isFileAt isFileStr lookupFileStr
        rw [List.find?_cons_of_pos _ (by simp)]
        rfl
    | some e2 =>
      dsimp only at h
      split at h
      · rename_i hcond
        injection h with ha hb
        subst ha
        obtain ⟨hst, hdisj⟩ := writeFileWx_err_inv st1 p c st2 e2 hwx
        subst hst
        rcases hdisj with ⟨he, hguard⟩ | ⟨he, hguard⟩ | ⟨he, hguard⟩
        · refine ⟨hfront1, Or.inr ⟨hparent1, ?_⟩⟩
          have hguard2 : isFileAt st2 p = true ∨ isDirAt st2 p = true := by
            simpa using hguard
          rcases hguard2 with hg1 | hg1
          · exact Or.inl hg1
          · exact Or.inr hg1
        · exfalso
          have hcode := eexist_cond hcond
          rw [he] at hcode
          injection hcode with hx
          exact neq_enotdir_eexist hx
        · exfalso
          have hcode := eexist_cond hcond
          rw [he] at hcode
          injection hcode with hx
          exact neq_enoent_eexist hx
      · simp [Prod.ext_iff] at h

theorem ensureFile_of_settled (st : FSState) (p c : String) (hset : Settled st p)
    (hsep : DirsFilesSep st) : ensureFile st p c = (st, Except.ok false) := by
  obtain ⟨hfront, hrest⟩ := hset
  have hchain : chainOf (dirname p) = parentChainFront p ++ [parentDirPath p] :=
    chain_dirname p
  unfold ensureFile
  rcases hrest with hpf | ⟨hpdir, hentry⟩
  · have hmk : mkdirRecursive st (dirname p) =
        (st, some (mkErrno "EEXIST" "mkdir" (parentDirPath p))) := by
      unfold mkdirRecursive
      rw [hchain, mkdirGo_append_id _ _ st hfront hsep]
      simp only [mkdirGo]
      rw [if_pos hpf]
      rfl
    rw [hmk]
    simp [mkErrno, isErrnoException]
  · have hmk : mkdirRecursive st (dirname p) = (st, none) := by
      unfold mkdirRecursive
      rw [hchain]
      refine mkdirGo_id _ st ?_ hsep
      intro q hq
      rcases List.mem_append.mp hq with hq | hq
      · exact hfront q hq
      · rw [List.mem_singleton.mp hq]
        exact hpdir
    rw [hmk]
    dsimp only
    have hb : (isFileAt st p || isDirAt st p) = true := by
      rcases hentry with h | h <;> simp [h]
    have hwx : writeFileWx st p c = (st, some (mkErrno "EEXIST" "open" p)) := by
      unfold writeFileWx
      rw [if_pos hb]
    rw [hwx]
    simp [mkErrno, isErrnoException]

theorem ensureFile_true_inv (st : FSState) (p c : String) (st' : FSState)
    (h : ensureFile st p c = (st', Except.ok true)) :
    ∃ st1, mkdirRecursive st (dirname p) = (st1, none) ∧
      writeFileWx st1 p c = (st', none) ∧ st1.files = st.files ∧
      (isFileAt st1 p || isDirAt st1 p) = false := by
  unfold ensureFile at h
  rcases hmk : mkdirRecursive st (dirname p) with ⟨st1, eo⟩
  rw [hmk] at h
  cases eo with
  | some e =>
    dsimp only at h
    split at h
    · simp [Prod.ext_iff] at h
    · simp [Prod.ext_iff] at h
  | none =>
    dsimp only at h
    rcases hwx : writeFileWx st1 p c with ⟨st2, eo2⟩
    rw [hwx] at h
    cases eo2 with
    | none =>
      dsimp only at h
      injection h with ha hb
      subst ha
      obtain ⟨hg, _, _, _⟩ := writeFileWx_ok_inv st1 p c st2 hwx
      refine ⟨st1, rfl, hwx, ?_, hg⟩
      have hf := mkdirRecursive_files st (dirname p)
      rw [hmk] at hf
      exact hf
    | some e2 =>
      dsimp only at h
      split at h
      · simp [Prod.ext_iff] at h
      · simp [Prod.ext_iff] at h

theorem ensureFile_true_lookup (st st' : FSState) (p c : String)
    (h : ensureFile st p c = (st', Except.ok true)) :
    lookupFileAt st' p = some c ∧ lookupFileAt st p = none := by
  obtain ⟨st1, hmk, hwx, hfiles, hguard⟩ := ensureFile_true_inv st p c st' h
  obtain ⟨_, _, _, hst⟩ := writeFileWx_ok_inv st1 p c st' hwx
  constructor
  · rw [hst]
    unfold lookupFileAt lookupFileStr
    rw [List.find?_cons_of_pos _ (by simp)]
    rfl
  · have h1 : isFileAt st1 p = false := or_false_left hguard
    have h2 : isFileAt st p = false := by
      rw [show isFileAt st p = isFileAt st1 p from (isFileStr_of_files_eq hfiles _).symm]
      exact h1
    unfold isFileAt isFileStr at h2
    cases ho : lookupFileStr st (canonAbs p) with
    | none => exact ho
    | some v =>
      rw [ho] at h2
      simp at h2

theorem ensureFile_ok_of_file (st : FSState) (p c : String) (st' : FSState) (b : Bool)
    (hf : isFileAt st p = true) (h : ensureFile st p c = (st', Except.ok b)) : b = false := by
  cases b with
  | false => rfl
  | true =>
    exfalso
    obtain ⟨_, hnone⟩ := ensureFile_true_lookup st st' p c h
    unfold isFileAt isFileStr at hf
    unfold lookupFileAt at hnone
    rw [hnone] at hf
    simp at hf

theorem ensureFile_not_true_files (st st' : FSState) (p c : String) (r : Except JsError Bool)
    (h : ensureFile st p c = (st', r)) (hr : r ≠ Except.ok true) : st'.files = st.files := by
  unfold ensureFile at h
  rcases hmk : mkdirRecursive st (dirname p) with ⟨st1, eo⟩
  rw [hmk] at h
  have hf1 : st1.files = st.files := by
    have hf := mkdirRecursive_files st (dirname p)
    rw [hmk] at hf
    exact hf
  cases eo with
  | some e =>
    dsimp only at h
    split at h
    · injection h with ha hb
      subst ha
      exact hf1
    · injection h with ha hb
      subst ha
      exact hf1
  | none =>
    dsimp only at h
    rcases hwx : writeFileWx st1 p c with ⟨st2, eo2⟩
    rw [hwx] at h
    cases eo2 with
    | none =>
      exfalso
      dsimp only at h
      injection h with ha hb
      exact hr hb.symm
    | some e2 =>
      obtain ⟨hst, _⟩ := writeFileWx_err_inv st1 p c st2 e2 hwx
      subst hst
      dsimp only at h
      split at h
      · injection h with ha hb
        subst ha
        exact hf1
      · injection h with ha hb
        subst ha
        exact hf1

/-! ### Scaffold phase lemmas -/

theorem grows_lookupAt {st st2 : FSState} (hg : Grows st st2) (p c : String)
    (h : lookupFileAt st p = some c) : lookupFileAt st2 p = some c :=
  hg.2 _ _ h

theorem grows_isFileAt {st st2 : FSState} (hg : Grows st st2) (p : String)
    (h : isFileAt st p = true) : isFileAt st2 p = true :=
  grows_isFileStr hg _ h

theorem scaffoldDirs_ok (root : String) (ds : List String) : ∀ (st st' : FSState)
    (cd : List String), scaffoldDirs root st ds = (st', cd, none) →
    cd = ds ∧ Grows st st' ∧ (DirsFilesSep st → DirsFilesSep st') ∧
      (∀ d ∈ ds, DirReady st' (joinPath root d)) ∧ st'.files = st.files := by
  induction ds with
  | nil =>
    intro st st' cd h
    injection h with h1 h2
    injection h2 with h3 h4
    subst h1
    subst h3
    exact ⟨rfl, grows_refl st, fun hs => hs, by simp, rfl⟩
  | cons d rest ih =>
    intro st st' cd h
    simp only [scaffoldDirs] at h
    rcases hed : ensureDirectory st (joinPath root d) with ⟨st1, eo⟩
    rw [hed] at h
    cases eo with
    | some e =>
      dsimp only at h
      simp [Prod.ext_iff] at h
    | none =>
      dsimp only at h
      rcases hsd : scaffoldDirs root st1 rest with ⟨st2, created, derr⟩
      rw [hsd] at h
      dsimp only at h
      injection h with h1 h2
      injection h2 with h3 h4
      subst h1
      subst h3
      subst h4
      have hg1 : Grows st st1 := by
        have hg := ensureDirectory_grows st (joinPath root d)
        rw [hed] at hg
        exact hg
      have hready1 : DirReady st1 (joinPath root d) := ensureDirectory_ok_ready st st1 _ hed
      have hsep1 : DirsFilesSep st → DirsFilesSep st1 := fun hs => by
        have hx := ensureDirectory_sep st (joinPath root d) hs
        rw [hed] at hx
        exact hx
      have hfile1 : st1.files = st.files := by
        have hx := ensureDirectory_files st (joinPath root d)
        rw [hed] at hx
        exact hx
      obtain ⟨hcd, hg2, hsep2, hready2, hfiles2⟩ := ih st1 st2 created hsd
      refine ⟨by rw [hcd], grows_trans hg1 hg2, fun hs => hsep2 (hsep1 hs), ?_,
        by rw [hfiles2, hfile1]⟩
      intro x hx
      rcases List.mem_cons.mp hx with hx1 | hx2
      · subst hx1
        exact dirReady_mono _ hg2 hready1
      · exact hready2 x hx2

theorem scaffoldDirs_of_ready (root : String) (ds : List String) : ∀ (st : FSState),
    (∀ d ∈ ds, DirReady st (joinPath root d)) → DirsFilesSep st →
    scaffoldDirs root st ds = (st, ds, none) := by
  induction ds with
  | nil =>
    intro st _ _
    rfl
  | cons d rest ih =>
    intro st hall hsep
    simp only [scaffoldDirs]
    rw [ensureDirectory_of_ready st _ (hall d (List.mem_cons_self _ _)) hsep]
    dsimp only
    rw [ih st (fun x hx => hall x (List.mem_cons_of_mem _ hx)) hsep]

theorem scaffoldFiles_cons_inv (root : String) (f : FileSpec) (rest : List FileSpec)
    (st st' : FSState) (cf sf : List String)
    (h : scaffoldFiles root st (f :: rest) = (st', cf, sf, Except.ok ())) :
    ∃ st1 b cf2 sf2, ensureFile st (joinPath root f.path) f.content = (st1, Except.ok b) ∧
      scaffoldFiles root st1 rest = (st', cf2, sf2, Except.ok ()) ∧
      ((b = true ∧ cf = f.path :: cf2 ∧ sf = sf2) ∨
        (b = false ∧ cf = cf2 ∧ sf = f.path :: sf2)) := by
  simp only [scaffoldFiles] at h
  rcases hef : ensureFile st (joinPath root f.path) f.content with ⟨st1, r⟩
  rw [hef] at h
  cases r with
  | error e =>
    dsimp only at h
    simp [Prod.ext_iff] at h
  | ok created =>
    dsimp only at h
    rcases hsf : scaffoldFiles root st1 rest with ⟨st2, cf2, sf2, rr⟩
    rw [hsf] at h
    dsimp only at h
    cases created with
    | true =>
      rw [if_pos rfl] at h
      injection h with h1 h2
      injection h2 with h3 h4
      injection h4 with h5 h6
      refine ⟨st1, true, cf2, sf2, rfl, ?_, Or.inl ⟨rfl, h3.symm, h5.symm⟩⟩
      rw [hsf, h1, h6]
    | false =>
      rw [if_neg (by simp)] at h
      injection h with h1 h2
      injection h2 with h3 h4
      injection h4 with h5 h6
      refine ⟨st1, false, cf2, sf2, rfl, ?_, Or.inr ⟨rfl, h3.symm, h5.symm⟩⟩
      rw [hsf, h1, h6]

theorem scaffoldFiles_nil_inv (root : String) (st st' : FSState) (cf sf : List String)
    (h : scaffoldFiles root st [] = (st', cf, sf, Except.ok ())) :
    st' = st ∧ cf = [] ∧ sf = [] := by
  injection h with h1 h2
  injection h2 with h3 h4
  injection h4 with h5 h6
  exact ⟨h1.symm, h3.symm, h5.symm⟩

theorem scaffoldFiles_grows (root : String) (fs : List FileSpec) : ∀ (st st' : FSState)
    (cf sf : List String), scaffoldFiles root st fs = (st', cf, sf, Except.ok ()) →
    Grows st st' := by
  induction fs with
  | nil =>
    intro st st' cf sf h
    obtain ⟨h1, _, _⟩ := scaffoldFiles_nil_inv root st st' cf sf h
    rw [h1]
    exact grows_refl st
  | cons f rest ih =>
    intro st st' cf sf h
    obtain ⟨st1, b, cf2, sf2, hef, hrest, _⟩ := scaffoldFiles_cons_inv _ _ _ _ _ _ _ h
    have hg1 : Grows st st1 := by
      have hg := ensureFile_grows st (joinPath root f.path) f.content
      rw [hef] at hg
      exact hg
    exact grows_trans hg1 (ih st1 st' cf2 sf2 hrest)

theorem scaffoldFiles_sep (root : String) (fs : List FileSpec) : ∀ (st st' : FSState)
    (cf sf : List String), scaffoldFiles root st fs = (st', cf, sf, Except.ok ()) →
    DirsFilesSep st → DirsFilesSep st' := by
  induction fs with
  | nil =>
    intro st st' cf sf h hs
    obtain ⟨h1, _, _⟩ := scaffoldFiles_nil_inv root st st' cf sf h
    rw [h1]
    exact hs
  | cons f rest ih =>
    intro st st' cf sf h hs
    obtain ⟨st1, b, cf2, sf2, hef, hrest, _⟩ := scaffoldFiles_cons_inv _ _ _ _ _ _ _ h
    have hs1 : DirsFilesSep st1 := by
      have hx := ensureFile_sep st (joinPath root f.path) f.content hs
      rw [hef] at hx
      exact hx
    exact ih st1 st' cf2 sf2 hrest hs1

theorem scaffoldFiles_parts (root : String) (fs : List FileSpec) : ∀ (st st' : FSState)
    (cf sf : List String), scaffoldFiles root st fs = (st', cf, sf, Except.ok ()) →
    cf.length + sf.length = fs.length ∧
      cf.Sublist (fs.map (fun g => g.path)) ∧ sf.Sublist (fs.map (fun g => g.path)) ∧
      (cf ++ sf).Perm (fs.map (fun g => g.path)) := by
  induction fs with
  | nil =>
    intro st st' cf sf h
    obtain ⟨_, h2, h3⟩ := scaffoldFiles_nil_inv root st st' cf sf h
    subst h2
    subst h3
    exact ⟨rfl, by simp, by simp, by simp⟩
  | cons f rest ih =>
    intro st st' cf sf h
    obtain ⟨st1, b, cf2, sf2, hef, hrest, hcase⟩ := scaffoldFiles_cons_inv _ _ _ _ _ _ _ h
    obtain ⟨hlen, hsub1, hsub2, hperm⟩ := ih st1 st' cf2 sf2 hrest
    rcases hcase with ⟨_, hcf, hsf⟩ | ⟨_, hcf, hsf⟩
    · subst hcf
      subst hsf
      refine ⟨?_, ?_, ?_, ?_⟩
      · simp only [List.length_cons, List.length_map]
        omega
      · exact List.Sublist.cons₂ _ hsub1
      · exact List.Sublist.cons _ hsub2
      · simpa using List.Perm.cons f.path hperm
    · subst hcf
      subst hsf
      refine ⟨?_, ?_, ?_, ?_⟩
      · simp only [List.length_cons, List.length_map]
        omega
      · exact List.Sublist.cons _ hsub1
      · exact List.Sublist.cons₂ _ hsub2
      · have hp1 : (cf ++ f.path :: sf2).Perm (f.path :: (cf ++ sf2)) :=
          List.perm_middle
        have hp2 : (f.path :: (cf ++ sf2)).Perm (f.path :: rest.map (fun g => g.path)) :=
          List.Perm.cons f.path hperm
        have hp3 : (f :: rest).map (fun g => g.path) = f.path :: rest.map (fun g => g.path) := by
          simp
        rw [hp3]
        exact hp1.trans hp2

theorem scaffoldFiles_content (root : String) (fs : List FileSpec) : ∀ (st st' : FSState)
    (cf sf : List String), scaffoldFiles root st fs = (st', cf, sf, Except.ok ()) →
    ∀ q ∈ cf, ∃ f, f ∈ fs ∧ f.path = q ∧
      lookupFileAt st' (joinPath root q) = some f.content := by
  induction fs with
  | nil =>
    intro st st' cf sf h q hq
    obtain ⟨_, h2, _⟩ := scaffoldFiles_nil_inv root st st' cf sf h
    subst h2
    exact absurd hq (by simp)
  | cons f rest ih =>
    intro st st' cf sf h q hq
    obtain ⟨st1, b, cf2, sf2, hef, hrest, hcase⟩ := scaffoldFiles_cons_inv _ _ _ _ _ _ _ h
    rcases hcase with ⟨hb, hcf, _⟩ | ⟨hb, hcf, _⟩
    · subst hb
      subst hcf
      rcases List.mem_cons.mp hq with hq1 | hq2
      · subst hq1
        obtain ⟨hlk, _⟩ := ensureFile_true_lookup st st1 (joinPath root f.path) f.content hef
        refine ⟨f, List.mem_cons_self _ _, rfl, ?_⟩
        exact grows_lookupAt (scaffoldFiles_grows root rest st1 st' cf2 sf2 hrest) _ _ hlk
      · obtain ⟨g, hg1, hg2, hg3⟩ := ih st1 st' cf2 sf2 hrest q hq2
        exact ⟨g, List.mem_cons_of_mem _ hg1, hg2, hg3⟩
    · subst hb
      subst hcf
      obtain ⟨g, hg1, hg2, hg3⟩ := ih st1 st' cf sf2 hrest q hq
      exact ⟨g, List.mem_cons_of_mem _ hg1, hg2, hg3⟩

theorem scaffoldFiles_skips (root : String) (fs : List FileSpec) : ∀ (st st' : FSState)
    (cf sf : List String), scaffoldFiles root st fs = (st', cf, sf, Except.ok ()) →
    ∀ f ∈ fs, isFileAt st (joinPath root f.path) = true → f.path ∈ sf := by
  induction fs with
  | nil =>
    intro st st' cf sf h f hf _
    exact absurd hf (by simp)
  | cons f rest ih =>
    intro st st' cf sf h g hg hfile
    obtain ⟨st1, b, cf2, sf2, hef, hrest, hcase⟩ := scaffoldFiles_cons_inv _ _ _ _ _ _ _ h
    have hg1 : Grows st st1 := by
      have hx := ensureFile_grows st (joinPath root f.path) f.content
      rw [hef] at hx
      exact hx
    rcases List.mem_cons.mp hg with hg1' | hg2
    · subst hg1'
      have hb : b = false := ensureFile_ok_of_file st _ _ st1 b hfile hef
      subst hb
      rcases hcase with ⟨hb, _, _⟩ | ⟨_, _, hsf⟩
      · cases hb
      · subst hsf
        exact List.mem_cons_self _ _
    · have hfile1 : isFileAt st1 (joinPath root g.path) = true := grows_isFileAt hg1 _ hfile
      have hmem := ih st1 st' cf2 sf2 hrest g hg2 hfile1
      rcases hcase with ⟨_, _, hsf⟩ | ⟨_, _, hsf⟩
      · subst hsf
        exact hmem
      · subst hsf
        exact List.mem_cons_of_mem _ hmem

theorem scaffoldFiles_settled (root : String) (fs : List FileSpec) : ∀ (st st' : FSState)
    (cf sf : List String), scaffoldFiles root st fs = (st', cf, sf, Except.ok ()) →
    ∀ f ∈ fs, Settled st' (joinPath root f.path) := by
  induction fs with
  | nil =>
    intro st st' cf sf h f hf
    exact absurd hf (by simp)
  | cons f rest ih =>
    intro st st' cf sf h g hg
    obtain ⟨st1, b, cf2, sf2, hef, hrest, _⟩ := scaffoldFiles_cons_inv _ _ _ _ _ _ _ h
    rcases List.mem_cons.mp hg with hg1 | hg2
    · subst hg1
      have hs1 : Settled st1 (joinPath root g.path) :=
        ensureFile_settled st st1 (joinPath root g.path) g.content b hef
      exact settled_mono _ (scaffoldFiles_grows root rest st1 st' cf2 sf2 hrest) hs1
    · exact ih st1 st' cf2 sf2 hrest g hg2

theorem scaffoldFiles_of_settled (root : String) (fs : List FileSpec) : ∀ (st : FSState),
    (∀ f ∈ fs, Settled st (joinPath root f.path)) → DirsFilesSep st →
    scaffoldFiles root st fs = (st, [], fs.map (fun g => g.path), Except.ok ()) := by
  induction fs with
  | nil =>
    intro st _ _
    rfl
  | cons f rest ih =>
    intro st hall hsep
    simp only [scaffoldFiles]
    rw [ensureFile_of_settled st _ f.content (hall f (List.mem_cons_self _ _)) hsep]
    dsimp only
    rw [ih st (fun x hx => hall x (List.mem_cons_of_mem _ hx)) hsep]
    simp

/-! ### Whole-scaffold inversions -/

theorem scaffold_ok_inv (PATTERNS : PatternType → PatternDefinition) (inp : String)
    (pt : PatternType) (base : String) (st st' : FSState) (r : ScaffoldResult)
    (h : scaffoldProject PATTERNS inp pt base st = (st', Except.ok r)) :
    ∃ root st1 st2 cd cf sf,
      resolveSafeTarget inp base = Except.ok root ∧
      ensureDirectory st root = (st1, none) ∧
      scaffoldDirs root st1 (PATTERNS pt).directories = (st2, cd, none) ∧
      scaffoldFiles root st2 (PATTERNS pt).files = (st', cf, sf, Except.ok ()) ∧
      r = { resolvedTarget := root, createdDirs := cd, createdFiles := cf,
            skippedFiles := sf, label := (PATTERNS pt).label } := by
  unfold scaffoldProject at h
  rcases hrs : resolveSafeTarget inp base with e0 | root
  · rw [hrs] at h
    dsimp only at h
    simp [Prod.ext_iff] at h
  · rw [hrs] at h
    dsimp only at h
    rcases hed : ensureDirectory st root with ⟨st1, eo⟩
    rw [hed] at h
    cases eo with
    | some e2 =>
      dsimp only at h
      simp [Prod.ext_iff] at h
    | none =>
      dsimp only at h
      rcases hsd : scaffoldDirs root st1 (PATTERNS pt).directories with ⟨st2, cd, derr⟩
      rw [hsd] at h
      cases derr with
      | some e2 =>
        dsimp only at h
        simp [Prod.ext_iff] at h
      | none =>
        dsimp only at h
        rcases hsf : scaffoldFiles root st2 (PATTERNS pt).files with ⟨st3, cf, sf, fr⟩
        rw [hsf] at h
        cases fr with
        | error e2 =>
          dsimp only at h
          simp [Prod.ext_iff] at h
        | ok u =>
          cases u
          dsimp only at h
          injection h with h1 h2
          injection h2 with h3
          refine ⟨root, st1, st2, cd, cf, sf, rfl, by rw [hed], by rw [hsd], ?_, h3.symm⟩
          rw [hsf, h1]

theorem resolveSafeTarget_err_inv (i b : String) (e : JsError)
    (h : resolveSafeTarget i b = Except.error e) :
    e = { code := none, message := securityViolationMessage i } := by
  unfold resolveSafeTarget at h
  split at h
  · injection h with h1
    exact h1.symm
  · simp at h

theorem scaffold_secerr (PATTERNS : PatternType → PatternDefinition) (inp : String)
    (pt : PatternType) (base : String) (st : FSState) (e : JsError)
    (h : resolveSafeTarget inp base = Except.error e) :
    scaffoldProject PATTERNS inp pt base st = (st, Except.error e) := by
  unfold scaffoldProject
  rw [h]

theorem ensureDirectory_err_inv (st st' : FSState) (d : String) (e : JsError)
    (h : ensureDirectory st d = (st', some e)) :
    e.code = none ∧ ∃ cause, e.message = dirErrorMessage d cause := by
  unfold ensureDirectory at h
  rcases hmk : mkdirRecursive st d with ⟨st2, eo⟩
  rw [hmk] at h
  cases eo with
  | none =>
    dsimp only at h
    simp [Prod.ext_iff] at h
  | some e0 =>
    dsimp only at h
    injection h with h1 h2
    injection h2 with h3
    rw [← h3]
    exact ⟨rfl, ⟨e0.message, rfl⟩⟩

theorem scaffoldDirs_err_inv (root : String) (ds : List String) : ∀ (st st' : FSState)
    (cd : List String) (e : JsError), scaffoldDirs root st ds = (st', cd, some e) →
    e.code = none ∧ ∃ d cause, e.message = dirErrorMessage d cause := by
  induction ds with
  | nil =>
    intro st st' cd e h
    simp [scaffoldDirs, Prod.ext_iff] at h
  | cons d rest ih =>
    intro st st' cd e h
    simp only [scaffoldDirs] at h
    rcases hed : ensureDirectory st (joinPath root d) with ⟨st1, eo⟩
    rw [hed] at h
    cases eo with
    | some e0 =>
      dsimp only at h
      injection h with h1 h2
      injection h2 with h3 h4
      injection h4 with h5
      obtain ⟨hc, cause, hm⟩ := ensureDirectory_err_inv st st1 (joinPath root d) e0 hed
      rw [← h5]
      exact ⟨hc, joinPath root d, cause, hm⟩
    | none =>
      dsimp only at h
      rcases hsd : scaffoldDirs root st1 rest with ⟨st2, created, derr⟩
      rw [hsd] at h
      dsimp only at h
      injection h with h1 h2
      injection h2 with h3 h4
      exact ih st1 st2 created e (by rw [hsd, h4])

theorem ensureFile_err_inv (st st' : FSState) (p c : String) (e : JsError)
    (h : ensureFile st p c = (st', Except.error e)) :
    e.code = none ∧ ∃ cause, e.message = fileErrorMessage p cause := by
  unfold ensureFile at h
  rcases hmk : mkdirRecursive st (dirname p) with ⟨st1, eo⟩
  rw [hmk] at h
  cases eo with
  | some e0 =>
    dsimp only at h
    split at h
    · simp [Prod.ext_iff] at h
    · injection h with h1 h2
      injection h2 with h3
      rw [← h3]
      exact ⟨rfl, ⟨e0.message, rfl⟩⟩
  | none =>
    dsimp only at h
    rcases hwx : writeFileWx st1 p c with ⟨st2, eo2⟩
    rw [hwx] at h
    cases eo2 with
    | none =>
      dsimp only at h
      simp [Prod.ext_iff] at h
    | some e2 =>
      dsimp only at h
      split at h
      · simp [Prod.ext_iff] at h
      · injection h with h1 h2
        injection h2 with h3
        rw [← h3]
        exact ⟨rfl, ⟨e2.message, rfl⟩⟩

theorem scaffoldFiles_err_inv (root : String) (fs : List FileSpec) : ∀ (st st' : FSState)
    (cf sf : List String) (e : JsError),
    scaffoldFiles root st fs = (st', cf, sf, Except.error e) →
    e.code = none ∧ ∃ q cause, e.message = fileErrorMessage q cause := by
  induction fs with
  | nil =>
    intro st st' cf sf e h
    simp [scaffoldFiles, Prod.ext_iff] at h
  | cons f rest ih =>
    intro st st' cf sf e h
    simp only [scaffoldFiles] at h
    rcases hef : ensureFile st (joinPath root f.path) f.content with ⟨st1, r⟩
    rw [hef] at h
    cases r with
    | error e0 =>
      dsimp only at h
      injection h with h1 h2
      injection h2 with h3 h4
      injection h4 with h5 h6
      injection h6 with h7
      obtain ⟨hc, cause, hm⟩ := ensureFile_err_inv st st1 (joinPath root f.path) f.content e0 hef
      rw [← h7]
      exact ⟨hc, joinPath root f.path, cause, hm⟩
    | ok created =>
      dsimp only at h
      rcases hsf : scaffoldFiles root st1 rest with ⟨st2, cf2, sf2, rr⟩
      rw [hsf] at h
      dsimp only at h
      cases created with
      | true =>
        rw [if_pos rfl] at h
        injection h with h1 h2
        injection h2 with h3 h4
        injection h4 with h5 h6
        exact ih st1 st2 cf2 sf2 e (by rw [hsf, h6])
      | false =>
        rw [if_neg (by simp)] at h
        injection h with h1 h2
        injection h2 with h3 h4
        injection h4 with h5 h6
        exact ih st1 st2 cf2 sf2 e (by rw [hsf, h6])

theorem scaffold_err_inv (PATTERNS : PatternType → PatternDefinition) (inp : String)
    (pt : PatternType) (base : String) (st st' : FSState) (e : JsError)
    (h : scaffoldProject PATTERNS inp pt base st = (st', Except.error e)) :
    e.code = none ∧
      (e.message = securityViolationMessage inp ∨
        (∃ d cause, e.message = dirErrorMessage d cause) ∨
        (∃ q cause, e.message = fileErrorMessage q cause)) := by
  unfold scaffoldProject at h
  rcases hrs : resolveSafeTarget inp base with e0 | root
  · rw [hrs] at h
    dsimp only at h
    injection h with h1 h2
    injection h2 with h3
    have hsec := resolveSafeTarget_err_inv inp base e0 hrs
    rw [← h3, hsec]
    exact ⟨rfl, Or.inl rfl⟩
  · rw [hrs] at h
    dsimp only at h
    rcases hed : ensureDirectory st root with ⟨st1, eo⟩
    rw [hed] at h
    cases eo with
    | some e2 =>
      dsimp only at h
      injection h with h1 h2
      injection h2 with h3
      obtain ⟨hc, cause, hm⟩ := ensureDirectory_err_inv st st1 root e2 hed
      rw [← h3]
      exact ⟨hc, Or.inr (Or.inl ⟨root, cause, hm⟩)⟩
    | none =>
      dsimp only at h
      rcases hsd : scaffoldDirs root st1 (PATTERNS pt).directories with ⟨st2, cd, derr⟩
      rw [hsd] at h
      cases derr with
      | some e2 =>
        dsimp only at h
        injection h with h1 h2
        injection h2 with h3
        obtain ⟨hc, d, cause, hm⟩ :=
          scaffoldDirs_err_inv root (PATTERNS pt).directories st1 st2 cd e2 (by rw [hsd])
        rw [← h3]
        exact ⟨hc, Or.inr (Or.inl ⟨d, cause, hm⟩)⟩
      | none =>
        dsimp only at h
        rcases hsf : scaffoldFiles root st2 (PATTERNS pt).files with ⟨st3, cf, sf, fr⟩
        rw [hsf] at h
        cases fr with
        | ok u =>
          cases u
          dsimp only at h
          simp [Prod.ext_iff] at h
        | error e2 =>
          dsimp only at h
          injection h with h1 h2
          injection h2 with h3
          obtain ⟨hc, q, cause, hm⟩ :=
            scaffoldFiles_err_inv root (PATTERNS pt).files st2 st3 cf sf e2 (by rw [hsf])
          rw [← h3]
          exact ⟨hc, Or.inr (Or.inr ⟨q, cause, hm⟩)⟩

/-! ### Error-message prefix classification -/

theorem isPrefixOf_ne_head (x y : Char) (u v : List Char) (h : x ≠ y) :
    List.isPrefixOf (x :: u) (y :: v) = false := by
  simp [List.isPrefixOf, beq_eq_false_iff_ne.mpr h]

theorem isPrefixOf_diverge (a : List Char) : ∀ (u t : List Char) (x y : Char),
    x ≠ y → List.isPrefixOf (a ++ x :: u) (a ++ y :: t) = false := by
  induction a with
  | nil =>
    intro u t x y h
    simp [List.isPrefixOf, beq_eq_false_iff_ne.mpr h]
  | cons c a ih =>
    intro u t x y h
    simp [List.isPrefixOf, ih u t x y h]

theorem secMsg_kinds (i : String) :
    strStartsWith (securityViolationMessage i) "Security violation:" = true ∧
    strStartsWith (securityViolationMessage i) "Failed to create directory '" = false ∧
    strStartsWith (securityViolationMessage i) "Failed to create file '" = false := by
  unfold securityViolationMessage strStartsWith
  rw [String.data_append, String.data_append]
  have h2 : ("Security violation: Target path '" : String).data =
      ("Security violation:" : String).data ++ (" Target path '" : String).data := by decide
  refine ⟨?_, ?_, ?_⟩
  · rw [h2, List.append_assoc]
    exact isPrefixOf_self_append _ _
  · have hd : ("Failed to create directory '" : String).data =
        'F' :: ("ailed to create directory '" : String).data := by decide
    have hs : ("Security violation: Target path '" : String).data =
        'S' :: ("ecurity violation: Target path '" : String).data := by decide
    rw [hd, hs, List.cons_append, List.cons_append]
    exact isPrefixOf_ne_head _ _ _ _ (by decide)
  · have hd : ("Failed to create file '" : String).data =
        'F' :: ("ailed to create file '" : String).data := by decide
    have hs : ("Security violation: Target path '" : String).data =
        'S' :: ("ecurity violation: Target path '" : String).data := by decide
    rw [hd, hs, List.cons_append, List.cons_append]
    exact isPrefixOf_ne_head _ _ _ _ (by decide)

theorem dirMsg_kinds (d cause : String) :
    strStartsWith (dirErrorMessage d cause) "Security violation:" = false ∧
    strStartsWith (dirErrorMessage d cause) "Failed to create directory '" = true ∧
    strStartsWith (dirErrorMessage d cause) "Failed to create file '" = false := by
  unfold dirErrorMessage strStartsWith
  rw [String.data_append, String.data_append, String.data_append]
  refine ⟨?_, ?_, ?_⟩
  · have hs : ("Security violation:" : String).data =
        'S' :: ("ecurity violation:" : String).data := by decide
    have hd : ("Failed to create directory '" : String).data =
        'F' :: ("ailed to create directory '" : String).data := by decide
    rw [hs, hd, List.cons_append, List.cons_append, List.cons_append]
    exact isPrefixOf_ne_head _ _ _ _ (by decide)
  · rw [List.append_assoc, List.append_assoc]
    exact isPrefixOf_self_append _ _
  · have hf : ("Failed to create file '" : String).data =
        ("Failed to create " : String).data ++ 'f' :: ("ile '" : String).data := by decide
    have hd : ("Failed to create directory '" : String).data =
        ("Failed to create " : String).data ++ 'd' :: ("irectory '" : String).data := by decide
    rw [hf, hd]
    simp only [List.append_assoc, List.cons_append]
    exact isPrefixOf_diverge _ _ _ _ _ (by decide)

theorem fileMsg_kinds (q cause : String) :
    strStartsWith (fileErrorMessage q cause) "Security violation:" = false ∧
    strStartsWith (fileErrorMessage q cause) "Failed to create directory '" = false ∧
    strStartsWith (fileErrorMessage q cause) "Failed to create file '" = true := by
  unfold fileErrorMessage strStartsWith
  rw [String.data_append, String.data_append, String.data_append]
  refine ⟨?_, ?_, ?_⟩
  · have hs : ("Security violation:" : String).data =
        'S' :: ("ecurity violation:" : String).data := by decide
    have hd : ("Failed to create file '" : String).data =
        'F' :: ("ailed to create file '" : String).data := by decide
    rw [hs, hd, List.cons_append, List.cons_append, List.cons_append]
    exact isPrefixOf_ne_head _ _ _ _ (by decide)
  · have hf : ("Failed to create directory '" : String).data =
        ("Failed to create " : String).data ++ 'd' :: ("irectory '" : String).data := by decide
    have hd : ("Failed to create file '" : String).data =
        ("Failed to create " : String).data ++ 'f' :: ("ile '" : String).data := by decide
    rw [hf, hd]
    simp only [List.append_assoc, List.cons_append]
    exact isPrefixOf_diverge _ _ _ _ _ (by decide)
  · rw [List.append_assoc, List.append_assoc]
    exact isPrefixOf_self_append _ _

/-! ### Full characterization of ensureFile outcomes -/

theorem exists_first_file (st : FSState) : ∀ (qs : List String),
    (∃ q ∈ qs, isFileStr st q = true) →
    ∃ qs₁ q₀ qs₂, qs = qs₁ ++ q₀ :: qs₂ ∧ (∀ x ∈ qs₁, isFileStr st x = false) ∧
      isFileStr st q₀ = true := by
  intro qs
  induction qs with
  | nil => simp
  | cons q rest ih =>
    intro hex
    cases hq : isFileStr st q with
    | true => exact ⟨[], q, rest, rfl, by simp, hq⟩
    | false =>
      have hex2 : ∃ x ∈ rest, isFileStr st x = true := by
        obtain ⟨x, hx, hxf⟩ := hex
        rcases List.mem_cons.mp hx with hx1 | hx2
        · subst hx1
          rw [hq] at hxf
          cases hxf
        · exact ⟨x, hx2, hxf⟩
      obtain ⟨qs₁, q₀, qs₂, heq, hcl, hf⟩ := ih hex2
      refine ⟨q :: qs₁, q₀, qs₂, by rw [heq]; rfl, ?_, hf⟩
      intro x hx
      rcases List.mem_cons.mp hx with hx1 | hx2
      · subst hx1
        exact hq
      · exact hcl x hx2

theorem mkdirGo_reach (qs₁ : List String) : ∀ (st : FSState) (q₀ : String) (qs₂ : List String),
    (∀ q ∈ qs₁, isFileStr st q = false) → isFileStr st q₀ = true →
    ∃ stx, mkdirGo st (qs₁ ++ q₀ :: qs₂) =
      (stx, some (mkErrno (if qs₂.isEmpty then "EEXIST" else "ENOTDIR") "mkdir" q₀)) := by
  induction qs₁ with
  | nil =>
    intro st q₀ qs₂ _ hf
    refine ⟨st, ?_⟩
    simp only [List.nil_append, mkdirGo]
    rw [if_pos hf]
  | cons q qs₁ ih =>
    intro st q₀ qs₂ hcl hf
    have hq : isFileStr st q = false := hcl q (List.mem_cons_self _ _)
    simp only [List.cons_append, mkdirGo]
    rw [if_neg (by simp [hq])]
    refine ih (addDir st q) q₀ qs₂ ?_ ?_
    · intro x hx
      rw [isFileStr_addDir]
      exact hcl x (List.mem_cons_of_mem _ hx)
    · rw [isFileStr_addDir]
      exact hf

theorem ensureFile_false_of_cond (st : FSState) (p c : String)
    (hfront : ∀ q ∈ parentChainFront p, isFileStr st q = false)
    (hcond : isFileStr st (parentDirPath p) = true ∨ isFileAt st p = true ∨
      isDirAt st p = true) :
    (ensureFile st p c).2 = Except.ok false := by
  have hchain := chain_dirname p
  unfold ensureFile
  by_cases hpf : isFileStr st (parentDirPath p) = true
  · obtain ⟨stx, hmk⟩ := mkdirGo_reach (parentChainFront p) st (parentDirPath p) [] hfront hpf
    have hmk' : mkdirRecursive st (dirname p) =
        (stx, some (mkErrno "EEXIST" "mkdir" (parentDirPath p))) := by
      unfold mkdirRecursive
      rw [hchain, hmk]
      rfl
    rw [hmk']
    simp [mkErrno, isErrnoException]
  · have hpf' : isFileStr st (parentDirPath p) = false := by simpa using hpf
    have hentry : isFileAt st p = true ∨ isDirAt st p = true := by
      rcases hcond with h | h
      · rw [h] at hpf'
        cases hpf'
      · exact h
    have hclean : ∀ q ∈ chainOf (dirname p), isFileStr st q = false := by
      intro q hq
      rw [hchain] at hq
      rcases List.mem_append.mp hq with hq | hq
      · exact hfront q hq
      · rw [List.mem_singleton.mp hq]
        exact hpf'
    rcases hmk : mkdirRecursive st (dirname p) with ⟨st1, eo⟩
    have heo : eo = none := by
      have hni := (mkdirGo_none_iff (chainOf (dirname p)) st).mpr hclean
      unfold mkdirRecursive at hmk
      rw [hmk] at hni
      exact hni
    subst heo
    dsimp only
    have hg1 : Grows st st1 := by
      have hg := mkdirRecursive_grows st (dirname p)
      rw [hmk] at hg
      exact hg
    have hentry1 : (isFileAt st1 p || isDirAt st1 p) = true := by
      rcases hentry with h | h
      · simp [grows_isFileAt hg1 _ h]
      · have hd : isDirAt st1 p = true := hg1.1 (canonAbs p) h
        simp [hd]
    have hwx : writeFileWx st1 p c = (st1, some (mkErrno "EEXIST" "open" p)) := by
      unfold writeFileWx
      rw [if_pos hentry1]
    rw [hwx]
    simp [mkErrno, isErrnoException]

theorem ensureFile_false_cond (st st' : FSState) (p c : String)
    (hnc : canonAbs p ∉ chainOf (dirname p))
    (h : ensureFile st p c = (st', Except.ok false)) :
    (∀ q ∈ parentChainFront p, isFileStr st q = false) ∧
      (isFileStr st (parentDirPath p) = true ∨ isFileAt st p = true ∨
        isDirAt st p = true) := by
  unfold ensureFile at h
  rcases hmk : mkdirRecursive st (dirname p) with ⟨st1, eo⟩
  rw [hmk] at h
  cases eo with
  | some e =>
    dsimp only at h
    split at h
    · rename_i hcondb
      obtain ⟨qs₁, q₀, qs₂, heq, hclean, hfile, herr, hfiles, hgrow, hdirs⟩ :=
        mkdirGo_err (chainOf (dirname p)) st st1 e hmk
      have hcode : e.code = some "EEXIST" := eexist_cond hcondb
      have hif : (if qs₂.isEmpty then "EEXIST" else "ENOTDIR") = "EEXIST" := by
        have hc1 : e.code = some (if qs₂.isEmpty then "EEXIST" else "ENOTDIR") := by
          rw [herr]
          rfl
        rw [hcode] at hc1
        injection hc1 with hx
        exact hx.symm
      have hq2 : qs₂ = [] := by
        cases hq2h : qs₂.isEmpty with
        | true => exact List.isEmpty_iff.mp hq2h
        | false =>
          rw [if_neg (by simp [hq2h])] at hif
          exact absurd hif neq_enotdir_eexist
      subst hq2
      have hde : qs₁ ++ [q₀] = parentChainFront p ++ [parentDirPath p] := by
        have hcd := chain_dirname p
        rw [heq] at hcd
        exact hcd
      have hinj := List.append_inj' hde rfl
      have hq₁ : qs₁ = parentChainFront p := hinj.1
      have hq₀ : q₀ = parentDirPath p := by simpa using hinj.2
      subst hq₁
      subst hq₀
      exact ⟨hclean, Or.inl hfile⟩
    · simp [Prod.ext_iff] at h
  | none =>
    dsimp only at h
    have hmk2 : mkdirGo st (chainOf (dirname p)) = (st1, none) := hmk
    have hcleanall : ∀ q ∈ chainOf (dirname p), isFileStr st q = false := by
      have hni := mkdirGo_none_iff (chainOf (dirname p)) st
      rw [hmk2] at hni
      exact hni.mp rfl
    have hfront : ∀ q ∈ parentChainFront p, isFileStr st q = false := by
      intro q hq
      refine hcleanall q ?_
      rw [chain_dirname p]
      exact List.mem_append_left _ hq
    have hfst1 : st1.files = st.files := by
      have hx := mkdirGo_files (chainOf (dirname p)) st
      rw [hmk2] at hx
      exact hx
    rcases hwx : writeFileWx st1 p c with ⟨st2, eo2⟩
    rw [hwx] at h
    cases eo2 with
    | none =>
      dsimp only at h
      simp [Prod.ext_iff] at h
    | some e2 =>
      dsimp only at h
      split at h
      · rename_i hcondb
        obtain ⟨hst, hdisj⟩ := writeFileWx_err_inv st1 p c st2 e2 hwx
        rcases hdisj with ⟨he, hguard⟩ | ⟨he, hguard⟩ | ⟨he, hguard⟩
        · have hg2 : isFileAt st1 p = true ∨ isDirAt st1 p = true := by simpa using hguard
          refine ⟨hfront, Or.inr ?_⟩
          rcases hg2 with hg | hg
          · left
            unfold isFileAt at hg
            rw [isFileStr_of_files_eq hfst1] at hg
            exact hg
          · right
            unfold isDirAt at hg
            have hb := mkdirGo_dirs_bound (chainOf (dirname p)) st (canonAbs p)
            rw [hmk2] at hb
            rcases hb hg with hb1 | hb1
            · exact hb1
            · exact absurd hb1 hnc
        · exfalso
          have hparentmem : canonAbs (dirname p) ∈ chainOf (dirname p) := by
            rw [chain_dirname p]
            exact List.mem_append_right _ (List.mem_cons_self _ _)
          unfold isFileAt at hguard
          rw [isFileStr_of_files_eq hfst1] at hguard
          rw [hcleanall _ hparentmem] at hguard
          cases hguard
        · exfalso
          have hdirs1 := mkdirGo_ok_dirs (chainOf (dirname p)) st st1 hmk
          have hp := hdirs1 (canonAbs (dirname p)) (by
            rw [chain_dirname p]
            exact List.mem_append_right _ (List.mem_cons_self _ _))
          unfold isDirAt at hguard
          rw [hp] at hguard
          cases hguard
      · simp [Prod.ext_iff] at h

theorem ensureFile_err_front (st st' : FSState) (p c : String) (e : JsError)
    (h : ensureFile st p c = (st', Except.error e)) :
    ∃ q ∈ parentChainFront p, isFileStr st q = true := by
  unfold ensureFile at h
  rcases hmk : mkdirRecursive st (dirname p) with ⟨st1, eo⟩
  rw [hmk] at h
  cases eo with
  | some e0 =>
    dsimp only at h
    split at h
    · simp [Prod.ext_iff] at h
    · rename_i hcond
      obtain ⟨qs₁, q₀, qs₂, heq, hclean, hfile, herr, _, _, _⟩ :=
        mkdirGo_err (chainOf (dirname p)) st st1 e0 hmk
      have hq2ne : qs₂ ≠ [] := by
        intro hq2
        subst hq2
        apply hcond
        rw [herr]
        simp [mkErrno, isErrnoException]
      have hfronteq : parentChainFront p = qs₁ ++ q₀ :: qs₂.dropLast := by
        have h1 : (chainOf (dirname p)).dropLast = qs₁ ++ q₀ :: qs₂.dropLast := by
          rw [heq, List.dropLast_append_of_ne_nil qs₁ (show q₀ :: qs₂ ≠ [] by simp),
            List.dropLast_cons_of_ne_nil hq2ne]
        exact h1
      refine ⟨q₀, ?_, hfile⟩
      rw [hfronteq]
      exact List.mem_append_right _ (List.mem_cons_self _ _)
  | none =>
    dsimp only at h
    rcases hwx : writeFileWx st1 p c with ⟨st2, eo2⟩
    rw [hwx] at h
    cases eo2 with
    | none =>
      dsimp only at h
      simp [Prod.ext_iff] at h
    | some e2 =>
      dsimp only at h
      split at h
      · simp [Prod.ext_iff] at h
      · rename_i hcond
        exfalso
        obtain ⟨hst, hdisj⟩ := writeFileWx_err_inv st1 p c st2 e2 hwx
        have hmk2 : mkdirGo st (chainOf (dirname p)) = (st1, none) := hmk
        have hcleanall : ∀ q ∈ chainOf (dirname p), isFileStr st q = false := by
          have hni := mkdirGo_none_iff (chainOf (dirname p)) st
          rw [hmk2] at hni
          exact hni.mp rfl
        have hfst1 : st1.files = st.files := by
          have hx := mkdirGo_files (chainOf (dirname p)) st
          rw [hmk2] at hx
          exact hx
        rcases hdisj with ⟨he, hguard⟩ | ⟨he, hguard⟩ | ⟨he, hguard⟩
        · apply hcond
          rw [he]
          simp [mkErrno, isErrnoException]
        · have hparentmem : canonAbs (dirname p) ∈ chainOf (dirname p) := by
            rw [chain_dirname p]
            exact List.mem_append_right _ (List.mem_cons_self _ _)
          unfold isFileAt at hguard
          rw [isFileStr_of_files_eq hfst1] at hguard
          rw [hcleanall _ hparentmem] at hguard
          cases hguard
        · have hdirs1 := mkdirGo_ok_dirs (chainOf (dirname p)) st st1 hmk
          have hp := hdirs1 (canonAbs (dirname p)) (by
            rw [chain_dirname p]
            exact List.mem_append_right _ (List.mem_cons_self _ _))
          unfold isDirAt at hguard
          rw [hp] at hguard
          cases hguard

theorem ensureFile_err_of_front (st : FSState) (p c : String) (q : String)
    (hqm : q ∈ parentChainFront p) (hqf : isFileStr st q = true) :
    ∃ e, (ensureFile st p c).2 = Except.error e ∧ e.code = none ∧
      strStartsWith e.message "Failed to create file '" = true := by
  have hchain := chain_dirname p
  obtain ⟨qs₁, q₀, qs₂, heq, hclean, hfile⟩ := exists_first_file st (chainOf (dirname p))
    ⟨q, by rw [hchain]; exact List.mem_append_left _ hqm, hqf⟩
  have hq2ne : qs₂ ≠ [] := by
    intro hq2
    subst hq2
    have hde : qs₁ ++ [q₀] = parentChainFront p ++ [parentDirPath p] := by
      rw [← heq]
      exact hchain
    have hinj := List.append_inj' hde rfl
    have hqclean : isFileStr st q = false := by
      apply hclean
      rw [hinj.1]
      exact hqm
    rw [hqf] at hqclean
    cases hqclean
  obtain ⟨stx, hmk⟩ := mkdirGo_reach qs₁ st q₀ qs₂ hclean hfile
  have hcode : (if qs₂.isEmpty then "EEXIST" else "ENOTDIR") = "ENOTDIR" := by
    rw [if_neg (by simp [hq2ne])]
  have hmk' : mkdirRecursive st (dirname p) = (stx, some (mkErrno "ENOTDIR" "mkdir" q₀)) := by
    unfold mkdirRecursive
    rw [heq, hmk, hcode]
  unfold ensureFile
  rw [hmk']
  dsimp only
  rw [if_neg ?hcond]
  case hcond =>
    intro hx
    have hcx := eexist_cond hx
    rw [show (mkErrno "ENOTDIR" "mkdir" q₀).code = some "ENOTDIR" from rfl] at hcx
    injection hcx with hy
    exact neq_enotdir_eexist hy
  exact ⟨_, rfl, rfl, (fileMsg_kinds p _).2.2⟩

/-! ### Shared helpers for the claim theorems -/

theorem sep_of_no_files (st : FSState) (h : st.files = []) : DirsFilesSep st := by
  intro q _
  unfold isFileStr lookupFileStr
  rw [h]
  rfl

theorem isFileAt_of_lookup (st : FSState) (p c : String)
    (h : lookupFileAt st p = some c) : isFileAt st p = true := by
  unfold isFileAt isFileStr
  unfold lookupFileAt at h
  rw [h]
  rfl

/-! ### Claim theorems -/

/-- Claim C1 (amended): for every input whose resolution against the base
stays inside the base AND whose relative path from the base does not begin
with the characters `".."`, `resolveSafeTarget` returns the resolved absolute
path and raises no error.  The extra proviso is needed: staying inside the
base alone is not sufficient (see the counterexample), because the source
tests `relative.startsWith('..')` on raw characters, which also fires on a
first segment merely beginning with two dots. -/
theorem C1_amended (i b : String)
    (hin : insideBase b (resolvePath b i) = true)
    (hpre : strStartsWith (relativePath b (resolvePath b i)) ".." = false) :
    resolveSafeTarget i b = Except.ok (resolvePath b i) := by
  rw [resolveSafeTarget_ok_iff]
  have habs : isAbsolute (relativePath b (resolvePath b i)) = false := by
    rw [relativePath_inside b (resolvePath b i) hin]
    exact isAbsolute_segsJoin _ (fun s hs => absSegsOf_clean _ s (List.mem_of_mem_drop hs))
  rw [hpre, habs]
  rfl

/-- Claim C1, witness: `"my-app"` against base `"/tmp/x"` resolves inside the
base and is accepted. -/
theorem C1_witness :
    insideBase "/tmp/x" (resolvePath "/tmp/x" "my-app") = true ∧
    resolveSafeTarget "my-app" "/tmp/x" = Except.ok (resolvePath "/tmp/x" "my-app") :=
  ⟨by decide, C1_amended "my-app" "/tmp/x" (by decide) (by decide)⟩

/-- Claim C1, counterexample to the original statement: the input `"..foo"`
resolves to `"/base/..foo"`, strictly inside the base `"/base"`, yet
`resolveSafeTarget` raises the security violation, because the relative path
`"..foo"` starts with the two characters `".."` even though its first segment
is not a parent-directory marker. -/
theorem C1_counterexample :
    insideBase "/base" (resolvePath "/base" "..foo") = true ∧
    resolveSafeTarget "..foo" "/base" =
      Except.error { code := none, message := securityViolationMessage "..foo" } :=
  ⟨by decide, by rfl⟩

/-- Claim C2: an input escaping the base is rejected — `resolveSafeTarget`
fails exactly when the relative path from the base to the resolved path
begins with `".."` or is itself absolute; whenever the resolved path lies
outside the base the security-violation error is raised; and a rejected
input makes `scaffoldProject` return the same error with the filesystem
state completely untouched (no write of any kind). -/
theorem C2_escapeRejected (i b : String) :
    ((∃ e, resolveSafeTarget i b = Except.error e) ↔
      (strStartsWith (relativePath b (resolvePath b i)) ".." ||
        isAbsolute (relativePath b (resolvePath b i))) = true) ∧
    (insideBase b (resolvePath b i) = false →
      resolveSafeTarget i b =
        Except.error { code := none, message := securityViolationMessage i }) ∧
    (∀ (PATTERNS : PatternType → PatternDefinition) (pt : PatternType) (st : FSState)
      (e : JsError), resolveSafeTarget i b = Except.error e →
      scaffoldProject PATTERNS i pt b st = (st, Except.error e)) := by
  refine ⟨resolveSafeTarget_fails_iff i b, ?_, ?_⟩
  · intro hout
    rw [resolveSafeTarget_err_iff, escape_startsWith b i hout]
    rfl
  · intro PATTERNS pt st e he
    exact scaffold_secerr PATTERNS i pt b st e he

/-- Claim C2, witness: scaffolding with input `".."` leaves the empty
filesystem untouched and surfaces the security violation. -/
theorem C2_witness :
    scaffoldProject testPatterns ".." PatternType.layered "/base" emptyFS =
      (emptyFS, Except.error { code := none, message := securityViolationMessage ".." }) :=
  (C2_escapeRejected ".." "/base").2.2 testPatterns PatternType.layered emptyFS _
    ((C2_escapeRejected ".." "/base").2.1 (by decide))

/-- Claim C3: scaffolding twice with identical arguments over an initially
file-free root leaves the filesystem unchanged on the second call and
returns an empty `createdFiles`, a `skippedFiles` listing every file path of
the pattern (hence of the same length as the pattern's file list), and the
same `createdDirs` as the first call. -/
theorem C3_idempotent (PATTERNS : PatternType → PatternDefinition) (inp : String)
    (pt : PatternType) (base : String) (st0 st1 : FSState) (r1 : ScaffoldResult)
    (hfiles : st0.files = [])
    (h1 : scaffoldProject PATTERNS inp pt base st0 = (st1, Except.ok r1)) :
    scaffoldProject PATTERNS inp pt base st1 =
      (st1, Except.ok
        { resolvedTarget := r1.resolvedTarget
          createdDirs := r1.createdDirs
          createdFiles := []
          skippedFiles := (PATTERNS pt).files.map (fun f => f.path)
          label := r1.label }) ∧
    r1.createdDirs = (PATTERNS pt).directories ∧
    ((PATTERNS pt).files.map (fun f => f.path)).length = (PATTERNS pt).files.length := by
  obtain ⟨root, sta, stb, cd, cf, sf, hrs, hed, hsd, hsf, hres⟩ :=
    scaffold_ok_inv PATTERNS inp pt base st0 st1 r1 h1
  have hsep0 : DirsFilesSep st0 := sep_of_no_files st0 hfiles
  have hsepa : DirsFilesSep sta := by
    have hx := ensureDirectory_sep st0 root hsep0
    rw [hed] at hx
    exact hx
  obtain ⟨hcd, hgab, hsepb', hreadyb, _⟩ :=
    scaffoldDirs_ok root (PATTERNS pt).directories sta stb cd hsd
  have hsepb : DirsFilesSep stb := hsepb' hsepa
  have hsep1 : DirsFilesSep st1 :=
    scaffoldFiles_sep root (PATTERNS pt).files stb st1 cf sf hsf hsepb
  have hgbs1 : Grows stb st1 := scaffoldFiles_grows root (PATTERNS pt).files stb st1 cf sf hsf
  have hready_root : DirReady st1 root :=
    dirReady_mono root (grows_trans hgab hgbs1) (ensureDirectory_ok_ready st0 sta root hed)
  have hready_ds : ∀ d ∈ (PATTERNS pt).directories, DirReady st1 (joinPath root d) :=
    fun d hd => dirReady_mono _ hgbs1 (hreadyb d hd)
  have hsettled : ∀ f ∈ (PATTERNS pt).files, Settled st1 (joinPath root f.path) :=
    scaffoldFiles_settled root (PATTERNS pt).files stb st1 cf sf hsf
  refine ⟨?_, by rw [hres]; exact hcd, by simp⟩
  unfold scaffoldProject
  rw [hrs]
  dsimp only
  rw [ensureDirectory_of_ready st1 root hready_root hsep1]
  dsimp only
  rw [scaffoldDirs_of_ready root (PATTERNS pt).directories st1 hready_ds hsep1]
  dsimp only
  rw [scaffoldFiles_of_settled root (PATTERNS pt).files st1 hsettled hsep1]
  dsimp only
  rw [hres]
  simp [hcd]

/-- Claim C3, witness: the second run of the concrete test scaffold is a
no-op creating nothing and skipping the single pattern file. -/
theorem C3_witness :
    scaffoldProject testPatterns "app" PatternType.layered "/base" firstRunFS =
      (firstRunFS, Except.ok
        { resolvedTarget := firstRunResult.resolvedTarget
          createdDirs := firstRunResult.createdDirs
          createdFiles := []
          skippedFiles := (testPatterns PatternType.layered).files.map (fun f => f.path)
          label := firstRunResult.label }) ∧
    firstRunResult.createdDirs = (testPatterns PatternType.layered).directories ∧
    ((testPatterns PatternType.layered).files.map (fun f => f.path)).length =
      (testPatterns PatternType.layered).files.length :=
  C3_idempotent testPatterns "app" PatternType.layered "/base" emptyFS firstRunFS
    firstRunResult rfl (by rfl)

/-- Claim C4: a file already present at a target path before a successful
`scaffoldProject` run keeps its exact content after the run, and its
relative path is reported in `skippedFiles` — the exclusive create fails on
pre-existence instead of truncating. -/
theorem C4_noClobber (PATTERNS : PatternType → PatternDefinition) (inp : String)
    (pt : PatternType) (base : String) (st st' : FSState) (r : ScaffoldResult)
    (f : FileSpec) (c0 : String)
    (hr : scaffoldProject PATTERNS inp pt base st = (st', Except.ok r))
    (hf : f ∈ (PATTERNS pt).files)
    (hpre : lookupFileAt st (joinPath r.resolvedTarget f.path) = some c0) :
    lookupFileAt st' (joinPath r.resolvedTarget f.path) = some c0 ∧
      f.path ∈ r.skippedFiles := by
  obtain ⟨root, sta, stb, cd, cf, sf, hrs, hed, hsd, hsf, hres⟩ :=
    scaffold_ok_inv PATTERNS inp pt base st st' r hr
  have hroot : r.resolvedTarget = root := by rw [hres]
  rw [hroot] at hpre ⊢
  have hg1 : Grows st sta := by
    have hx := ensureDirectory_grows st root
    rw [hed] at hx
    exact hx
  have hg2 : Grows sta stb :=
    (scaffoldDirs_ok root (PATTERNS pt).directories sta stb cd hsd).2.1
  have hg3 : Grows stb st' := scaffoldFiles_grows root (PATTERNS pt).files stb st' cf sf hsf
  constructor
  · exact grows_lookupAt (grows_trans hg1 (grows_trans hg2 hg3)) _ _ hpre
  · have hl : lookupFileAt stb (joinPath root f.path) = some c0 :=
      grows_lookupAt (grows_trans hg1 hg2) _ _ hpre
    have hfb : isFileAt stb (joinPath root f.path) = true :=
      isFileAt_of_lookup stb _ c0 hl
    have hmem : f.path ∈ sf :=
      scaffoldFiles_skips root (PATTERNS pt).files stb st' cf sf hsf f hf hfb
    rw [hres]
    exact hmem

/-- Claim C4, witness: pre-seeding `"src/app.ts"` with the content
`"custom"` preserves those bytes through a scaffold run and reports the path
as skipped. -/
theorem C4_witness :
    lookupFileAt preSeedRunFS (joinPath preSeedRunResult.resolvedTarget "src/app.ts") =
      some "custom" ∧
    "src/app.ts" ∈ preSeedRunResult.skippedFiles :=
  C4_noClobber testPatterns "app" PatternType.layered "/base" preSeededFS preSeedRunFS
    preSeedRunResult { path := "src/app.ts", content := "export \x7b\x7d;\n" } "custom"
    (by rfl) (by decide) (by rfl)

/-- Claim C5: after any successful `scaffoldProject` run, every path listed
in `createdFiles` corresponds to a pattern file entry and holds on disk
exactly that entry's content, unchanged. -/
theorem C5_contentFidelity (PATTERNS : PatternType → PatternDefinition) (inp : String)
    (pt : PatternType) (base : String) (st st' : FSState) (r : ScaffoldResult)
    (hr : scaffoldProject PATTERNS inp pt base st = (st', Except.ok r)) :
    ∀ q ∈ r.createdFiles, ∃ f, f ∈ (PATTERNS pt).files ∧ f.path = q ∧
      lookupFileAt st' (joinPath r.resolvedTarget q) = some f.content := by
  obtain ⟨root, sta, stb, cd, cf, sf, hrs, hed, hsd, hsf, hres⟩ :=
    scaffold_ok_inv PATTERNS inp pt base st st' r hr
  intro q hq
  have hq2 : q ∈ cf := by
    rw [hres] at hq
    exact hq
  have hroot : r.resolvedTarget = root := by rw [hres]
  rw [hroot]
  exact scaffoldFiles_content root (PATTERNS pt).files stb st' cf sf hsf q hq2

/-- Claim C5, witness: the created file `"src/app.ts"` of the concrete first
run holds exactly the pattern's content. -/
theorem C5_witness :
    ∃ f, f ∈ (testPatterns PatternType.layered).files ∧ f.path = "src/app.ts" ∧
      lookupFileAt firstRunFS (joinPath firstRunResult.resolvedTarget "src/app.ts") =
        some f.content :=
  C5_contentFidelity testPatterns "app" PatternType.layered "/base" emptyFS firstRunFS
    firstRunResult (by rfl) "src/app.ts" (by decide)

/-- Claim C6 (amended): for a path that is not its own parent, `ensureFile`
returns `false` exactly when the proper ancestors of the parent are free of
files AND either a file occupies the parent itself (recursive mkdir raises
`EEXIST` on its last component) or some entry — file OR directory — already
exists at the path (the exclusive create raises `EEXIST`); no content
comparison happens.  It fails exactly when a file occupies a proper ancestor
of the parent directory, and then with a plain code-less error whose message
carries the file-creation prefix.  It returns `true` exactly on a fresh
write, after which the file holds the given content.  The original claim's
"`false` iff a file already existed at that path" is refuted by the
counterexample. -/
theorem C6_amended (st st' : FSState) (p c : String) (r : Except JsError Bool)
    (hnc : canonAbs p ∉ chainOf (dirname p))
    (h : ensureFile st p c = (st', r)) :
    (r = Except.ok false ↔
      ((∀ q ∈ parentChainFront p, isFileStr st q = false) ∧
        (isFileStr st (parentDirPath p) = true ∨ isFileAt st p = true ∨
          isDirAt st p = true))) ∧
    ((∃ e, r = Except.error e) ↔ ∃ q ∈ parentChainFront p, isFileStr st q = true) ∧
    (∀ e, r = Except.error e → e.code = none ∧
      strStartsWith e.message "Failed to create file '" = true) ∧
    (r = Except.ok true → isFileAt st p = false ∧ lookupFileAt st' p = some c) := by
  refine ⟨⟨?_, ?_⟩, ⟨?_, ?_⟩, ?_, ?_⟩
  · intro hfalse
    rw [hfalse] at h
    exact ensureFile_false_cond st st' p c hnc h
  · rintro ⟨hfront, hcond⟩
    have hx := ensureFile_false_of_cond st p c hfront hcond
    rw [h] at hx
    exact hx
  · rintro ⟨e, he⟩
    rw [he] at h
    exact ensureFile_err_front st st' p c e h
  · rintro ⟨q, hq, hf⟩
    obtain ⟨e, he, _, _⟩ := ensureFile_err_of_front st p c q hq hf
    rw [h] at he
    exact ⟨e, he⟩
  · intro e he
    rw [he] at h
    obtain ⟨hc, cause, hm⟩ := ensureFile_err_inv st st' p c e h
    refine ⟨hc, ?_⟩
    rw [hm]
    exact (fileMsg_kinds p cause).2.2
  · intro htrue
    rw [htrue] at h
    obtain ⟨hlk, hnone⟩ := ensureFile_true_lookup st st' p c h
    refine ⟨?_, hlk⟩
    unfold isFileAt isFileStr
    unfold lookupFileAt at hnone
    rw [hnone]
    rfl

/-- Claim C6, witness: a fresh write under an existing directory returns
`true` and stores the content. -/
theorem C6_witness :
    isFileAt { dirs := ["/d"], files := [] } "/d/f" = false ∧
    lookupFileAt { dirs := ["/d"], files := [("/d/f", "x")] } "/d/f" = some "x" :=
  (C6_amended { dirs := ["/d"], files := [] } { dirs := ["/d"], files := [("/d/f", "x")] }
    "/d/f" "x" (Except.ok true) (by decide) (by rfl)).2.2.2 rfl

/-- Claim C6, counterexample to the original statement: with a directory (and
no file) occupying `"/d"`, `ensureFile` at `"/d"` returns `false` even though
no file exists at that path — `false` signals any `EEXIST`, not specifically
"a file already existed". -/
theorem C6_counterexample :
    ensureFile { dirs := ["/d"], files := [] } "/d" "x" =
      ({ dirs := ["/d"], files := [] }, Except.ok false) ∧
    lookupFileAt { dirs := ["/d"], files := [] } "/d" = none :=
  ⟨by rfl, by rfl⟩

/-- Claim C7: in every successful result, `createdDirs` is exactly the
pattern's `directories` list in declaration order, and `createdFiles` and
`skippedFiles` are sublists of the pattern's file paths in declaration
order, whatever the starting filesystem state. -/
theorem C7_ordering (PATTERNS : PatternType → PatternDefinition) (inp : String)
    (pt : PatternType) (base : String) (st st' : FSState) (r : ScaffoldResult)
    (hr : scaffoldProject PATTERNS inp pt base st = (st', Except.ok r)) :
    r.createdDirs = (PATTERNS pt).directories ∧
    r.createdFiles.Sublist ((PATTERNS pt).files.map (fun f => f.path)) ∧
    r.skippedFiles.Sublist ((PATTERNS pt).files.map (fun f => f.path)) := by
  obtain ⟨root, sta, stb, cd, cf, sf, hrs, hed, hsd, hsf, hres⟩ :=
    scaffold_ok_inv PATTERNS inp pt base st st' r hr
  obtain ⟨hcd, _, _, _, _⟩ := scaffoldDirs_ok root (PATTERNS pt).directories sta stb cd hsd
  obtain ⟨_, hsub1, hsub2, _⟩ := scaffoldFiles_parts root (PATTERNS pt).files stb st' cf sf hsf
  rw [hres]
  exact ⟨hcd, hsub1, hsub2⟩

/-- Claim C7, witness: the concrete first run reports the pattern's
directory list verbatim and its file path as created, in order. -/
theorem C7_witness :
    firstRunResult.createdDirs = (testPatterns PatternType.layered).directories ∧
    firstRunResult.createdFiles.Sublist
      ((testPatterns PatternType.layered).files.map (fun f => f.path)) ∧
    firstRunResult.skippedFiles.Sublist
      ((testPatterns PatternType.layered).files.map (fun f => f.path)) :=
  C7_ordering testPatterns "app" PatternType.layered "/base" emptyFS firstRunFS
    firstRunResult (by rfl)

/-- Claim C8 (amended): every fatal error aborts the whole `scaffoldProject`
call, but it is surfaced as a plain code-less `Error` — not an errno
exception and not otherwise machine-tagged; the failure kinds are
distinguishable only by their message text, whose prefix is one of the three
wrapper forms (security violation, directory creation, file creation). -/
theorem C8_amended (PATTERNS : PatternType → PatternDefinition) (inp : String)
    (pt : PatternType) (base : String) (st st' : FSState) (e : JsError)
    (h : scaffoldProject PATTERNS inp pt base st = (st', Except.error e)) :
    e.code = none ∧ isErrnoException e = false ∧
    (e.message = securityViolationMessage inp ∨
      (∃ d cause, e.message = dirErrorMessage d cause) ∨
      (∃ q cause, e.message = fileErrorMessage q cause)) ∧
    (strStartsWith e.message "Security violation:" = true ∨
      strStartsWith e.message "Failed to create directory '" = true ∨
      strStartsWith e.message "Failed to create file '" = true) := by
  obtain ⟨hc, hkinds⟩ := scaffold_err_inv PATTERNS inp pt base st st' e h
  refine ⟨hc, ?_, hkinds, ?_⟩
  · unfold isErrnoException
    rw [hc]
    rfl
  · rcases hkinds with hm | ⟨d, cause, hm⟩ | ⟨q, cause, hm⟩
    · exact Or.inl (by rw [hm]; exact (secMsg_kinds inp).1)
    · exact Or.inr (Or.inl (by rw [hm]; exact (dirMsg_kinds d cause).2.1))
    · exact Or.inr (Or.inr (by rw [hm]; exact (fileMsg_kinds q cause).2.2))

/-- Claim C8, witness: the concrete security failure carries no errno code
and is not an errno exception. -/
theorem C8_witness :
    ({ code := none, message := securityViolationMessage ".." } : JsError).code = none ∧
    isErrnoException { code := none, message := securityViolationMessage ".." } = false :=
  ⟨(C8_amended deepPatterns ".." PatternType.layered "/base" emptyFS emptyFS
      { code := none, message := securityViolationMessage ".." } (by rfl)).1,
   (C8_amended deepPatterns ".." PatternType.layered "/base" emptyFS emptyFS
      { code := none, message := securityViolationMessage ".." } (by rfl)).2.1⟩

/-- Claim C8, counterexample to the original statement: three runs failing
for three different reasons — security violation, directory creation blocked
by a file at the target, file creation blocked by a file on the parent
chain — all surface an error whose `code` field is `none`: a generic
`Error`, with no machine-readable type tag to script against. -/
theorem C8_counterexample :
    errCodeOf (scaffoldProject deepPatterns ".." PatternType.layered "/base" emptyFS) =
      some none ∧
    errCodeOf (scaffoldProject testPatterns "app" PatternType.layered "/base" dirBlockedFS) =
      some none ∧
    errCodeOf (scaffoldProject deepPatterns "app" PatternType.layered "/base" fileBlockedFS) =
      some none :=
  ⟨by rfl, by rfl, by rfl⟩

/-- Claim C9: on every successful run each pattern file lands in exactly one
of `createdFiles` or `skippedFiles`: the two lengths sum to the pattern's
file count, and their concatenation is a permutation of the pattern's file
paths. -/
theorem C9_partition (PATTERNS : PatternType → PatternDefinition) (inp : String)
    (pt : PatternType) (base : String) (st st' : FSState) (r : ScaffoldResult)
    (hr : scaffoldProject PATTERNS inp pt base st = (st', Except.ok r)) :
    r.createdFiles.length + r.skippedFiles.length = (PATTERNS pt).files.length ∧
    (r.createdFiles ++ r.skippedFiles).Perm ((PATTERNS pt).files.map (fun f => f.path)) := by
  obtain ⟨root, sta, stb, cd, cf, sf, hrs, hed, hsd, hsf, hres⟩ :=
    scaffold_ok_inv PATTERNS inp pt base st st' r hr
  obtain ⟨hlen, _, _, hperm⟩ := scaffoldFiles_parts root (PATTERNS pt).files stb st' cf sf hsf
  rw [hres]
  exact ⟨hlen, hperm⟩

/-- Claim C9, witness: the concrete first run partitions the single pattern
file into `createdFiles`. -/
theorem C9_witness :
    firstRunResult.createdFiles.length + firstRunResult.skippedFiles.length =
      (testPatterns PatternType.layered).files.length ∧
    (firstRunResult.createdFiles ++ firstRunResult.skippedFiles).Perm
      ((testPatterns PatternType.layered).files.map (fun f => f.path)) :=
  C9_partition testPatterns "app" PatternType.layered "/base" emptyFS firstRunFS
    firstRunResult (by rfl)

/-- Claim C10: for a canonical base directory, `resolveSafeTarget` accepts
the empty input and returns the base itself — the core never rejects an
empty `inputPath`; non-emptiness is enforced solely by the transport-layer
schema's minimum length of one. -/
theorem C10_emptyInput (b : String) (hb : canonAbs b = b) :
    resolveSafeTarget "" b = Except.ok b ∧ scaffoldInputPathValid "" = false := by
  constructor
  · have hres : resolvePath b "" = b := by rw [resolvePath_empty, hb]
    have hok : resolveSafeTarget "" b = Except.ok (resolvePath b "") := by
      rw [resolveSafeTarget_ok_iff, hres, relativePath_self]
      decide
    rw [hok, hres]
  · rfl

/-- Claim C10, witness: the empty input against `"/base"` resolves to
`"/base"` while the schema rejects it. -/
theorem C10_witness :
    resolveSafeTarget "" "/base" = Except.ok "/base" ∧
    scaffoldInputPathValid "" = false :=
  C10_emptyInput "/base" (by rfl)


end Scaffold
